import Mathlib

set_option autoImplicit false

/-
Verification development for the flare-profiler repository.

The repository contains the storage/query-engine design document
(src/unnamed/part_000, §5 "Server端设计") and the Electron UI shell
(src/flare-ui/main/src/main.js).  The storage engine itself is not present
under src/, so its data model and operations are modelled from the spec
(spec.md §3, §4, §7); each such definition is marked "Modelled from the
spec".  The Electron window-lifecycle logic is embedded directly from
src/flare-ui/main/src/main.js.
-/

namespace Flare

/-! ## Indexed call-stack store (spec §4.3, design doc §5.1(3)) -/

/-- Modelled from the spec: a StackRecord of one thread's store holds the
time-step of the sample and the ordered frames root→leaf (method ids);
the store files are per-thread, so no thread id is stored in the record
(design doc: "对于每个线程的数据分为两个文件"). -/
structure StackRecord where
  step : Nat
  frames : List Nat
  deriving Repr, DecidableEq

/-- Modelled from the spec: a record is self-delimiting via a length
prefix (spec §3 StackRecord: "Self-delimiting (length-prefixed ...)");
the body is the step followed by the frames, the prefix is the body
length. -/
def serializeRecord (r : StackRecord) : List Nat :=
  (r.frames.length + 1) :: r.step :: r.frames

/-- Byte stream of a whole data file body: the concatenation of the
serialized records in append order. -/
def serializeAll (rs : List StackRecord) : List Nat :=
  (rs.map serializeRecord).flatten

/-- Decode a record body (step followed by frames). -/
def decodeRecord (body : List Nat) : StackRecord :=
  ⟨body.headD 0, body.tail⟩

/-- Modelled from the spec: sequential deserialization of a record stream
(fuel-indexed for structural recursion; the wrapper passes the stream
length, which is always sufficient fuel).  A trailing record whose body
is shorter than its length prefix is a torn write from an in-progress
append and is dropped silently (spec §4.3 Failure, §7 TornWrite); a
zero-length record is corruption and is surfaced as an error (spec §7:
corruption beyond a torn trailing record is surfaced). -/
def deserializeGo : Nat → List Nat → Except String (List StackRecord)
  | _, [] => .ok []
  | 0, _ :: _ => .error "out of fuel"
  | fuel + 1, len :: rest =>
    if rest.length < len then
      .ok []
    else if len = 0 then
      .error "corrupt record"
    else
      match deserializeGo fuel (rest.drop len) with
      | .ok tl => .ok (decodeRecord (rest.take len) :: tl)
      | .error e => .error e

/-- Deserialize a record stream from its start. -/
def deserializeFrom (l : List Nat) : Except String (List StackRecord) :=
  deserializeGo l.length l

/-- Modelled from the spec: the forward scan of `read_range` — skip
records with step < start, yield records while step ≤ end, stop without
error at the first record with step > end (spec §4.3 read_range). -/
def scanRange (s e : Nat) : List StackRecord → List StackRecord
  | [] => []
  | r :: rs =>
    if e < r.step then []
    else if r.step < s then scanRange s e rs
    else r :: scanRange s e rs

/-- Modelled from the spec: search of the checkpoint index for the
greatest entry with step ≤ start (offset 0 if none).  The index is
sorted strictly by step (see the index-monotonicity theorem), so the
binary search described in the spec returns the last entry with
step ≤ start; the search is modelled by that post-condition. -/
def searchIndex (index : List (Nat × Nat)) (s : Nat) : Nat :=
  match (index.filter (fun p => decide (p.1 ≤ s))).getLast? with
  | none => 0
  | some p => p.2

/-- Modelled from the spec: an indexed store is a data byte stream plus a
checkpoint index stream of (time-step, byte-offset) pairs (design doc
§5.1(3): 索引文件 + 数据文件).  The method-dictionary store (§4.4) has the
same shape with the method id playing the role of the step. -/
structure IdxStore where
  data : List Nat
  index : List (Nat × Nat)
  deriving Repr, DecidableEq

def IdxStore.empty : IdxStore := ⟨[], []⟩

/-- Modelled from the spec: `append(record)` serializes the record to the
data stream, and every N steps (the configurable index interval) also
appends a (step, current_offset) pair to the index stream (spec §4.3);
the offset recorded is the start position of the appended record.  A
checkpoint is written for the first record, and subsequently whenever
the new record's step has advanced by at least the interval since the
last checkpointed step. -/
def IdxStore.append (N : Nat) (st : IdxStore) (r : StackRecord) : IdxStore :=
  let doCkpt : Bool :=
    match st.index.getLast? with
    | none => true
    | some p => decide (p.1 + N ≤ r.step)
  { data := st.data ++ serializeRecord r
    index := if doCkpt then st.index ++ [(r.step, st.data.length)] else st.index }

/-- Store reached by appending the given records, in order, to an empty
store with index interval N. -/
def buildStore (N : Nat) (rs : List StackRecord) : IdxStore :=
  rs.foldl (IdxStore.append N) IdxStore.empty

/-- Modelled from the spec: `read_range(start_step, end_step)` — search
the index for the greatest entry with step ≤ start_step (offset 0 if
none), seek the data stream there, sequentially deserialize, skip
records with step < start_step, yield while step ≤ end_step, stop
without error at end-of-stream or at the first record past end_step
(spec §4.3, design doc "读取范围数据"). -/
def IdxStore.read_range (st : IdxStore) (s e : Nat) : Except String (List StackRecord) :=
  match deserializeFrom (st.data.drop (searchIndex st.index s)) with
  | .ok recs => .ok (scanRange s e recs)
  | .error err => .error err

/-- Store whose data file lost its final k bytes (a torn write from an
in-progress append, spec §4.3 Failure): the data stream is truncated,
the index stream is untouched. -/
def IdxStore.truncData (st : IdxStore) (k : Nat) : IdxStore :=
  { st with data := st.data.take (st.data.length - k) }

/-- Records of a store data stream whose step lies in [s, e], in stream
order: the reference answer of a range query. -/
def inWindow (s e : Nat) (rs : List StackRecord) : List StackRecord :=
  rs.filter (fun r => decide (s ≤ r.step) && decide (r.step ≤ e))

/-- Step monotonicity of an append sequence: the writer appends records
in time order, so steps are nondecreasing along the list. -/
def StepsMono (rs : List StackRecord) : Prop :=
  List.Pairwise (fun a b => a.step ≤ b.step) rs

/-! ## Time-series store (spec §4.2, design doc §5.1(2)) -/

/-- Modelled from the spec: one stored CPU-time sample — its timestamp
(epoch ms) and its 16-bit value. -/
structure TSSample where
  ts : Nat
  val : Nat
  deriving Repr, DecidableEq

/-- Modelled from the spec: one time-series segment — begin_time, the
mutable end_time (absent until the segment is finalized), and the
samples appended to it (spec §3 Segment Header; record count is the
length of the sample list). -/
structure TSSegment where
  begin_time : Nat
  end_time : Option Nat
  samples : List TSSample
  deriving Repr, DecidableEq

/-- Modelled from the spec: the time-series store of one thread — the
finalized (rotated) segments in order plus the current in-progress
segment, if any. -/
structure TSStore where
  closed : List TSSegment
  current : Option TSSegment
  deriving Repr, DecidableEq

def TSStore.empty : TSStore := ⟨[], none⟩

/-- Modelled from the spec: samples are u16, so an appended value is
clipped (saturated) at the representable maximum 65535 (design doc:
"存储的数据类型为u16"; spec §3 TimeSeriesSample). -/
def clip16 (micros : Nat) : Nat := min micros 65535

/-- One hour in milliseconds: the maximum coverage of one segment
(design doc: "每个时序数据的数据范围最长为1个小时"). -/
def hourMs : Nat := 3600000

/-- Modelled from the spec: finalizing a segment writes its end_time
(the timestamp of its last sample; the begin_time if it has none) into
the header; the record count is frozen with the sample list. -/
def TSSegment.finalize (seg : TSSegment) : TSSegment :=
  { seg with end_time := some (((seg.samples.getLast?).map TSSample.ts).getD seg.begin_time) }

/-- Modelled from the spec: `append(thread_id, timestamp, micros)` clips
the value to the u16 maximum and appends the sample; if the timestamp is
more than one hour past the current segment's begin_time, the current
segment is finalized first and a new segment is opened with
begin_time = timestamp, receiving the sample (spec §4.2). -/
def TSStore.append (st : TSStore) (timestamp micros : Nat) : TSStore :=
  match st.current with
  | none =>
    { st with current := some ⟨timestamp, none, [⟨timestamp, clip16 micros⟩]⟩ }
  | some seg =>
    if hourMs < timestamp - seg.begin_time then
      { closed := st.closed ++ [seg.finalize]
        current := some ⟨timestamp, none, [⟨timestamp, clip16 micros⟩]⟩ }
    else
      { st with current := some { seg with samples := seg.samples ++ [⟨timestamp, clip16 micros⟩] } }

/-- Store reached by appending the given (timestamp, micros) samples, in
order, to an empty time-series store. -/
def buildTS (inputs : List (Nat × Nat)) : TSStore :=
  inputs.foldl (fun st x => st.append x.1 x.2) TSStore.empty

/-- All samples held by the store, in append order (closed segments in
rotation order, then the current segment). -/
def TSStore.allSamples (st : TSStore) : List TSSample :=
  (st.closed.map TSSegment.samples).flatten ++ ((st.current.map TSSegment.samples).getD [])

/-- Downsampling helper (fuel-indexed for structural recursion): split
the sample list into consecutive buckets of w samples and sum each
bucket.  The caller passes a positive w. -/
def bucketizeGo : Nat → Nat → List Nat → List Nat
  | _, _, [] => []
  | 0, _, _ :: _ => []
  | fuel + 1, w, x :: xs =>
    ((x :: xs).take w).sum :: bucketizeGo fuel w ((x :: xs).drop w)

/-- Sum consecutive buckets of w samples (w taken to be at least 1). -/
def bucketize (w : Nat) (l : List Nat) : List Nat :=
  bucketizeGo l.length (max 1 w) l

/-- Raw sample values of the store whose timestamp lies in the window,
in append order. -/
def TSStore.rawInRange (st : TSStore) (start_time end_time : Nat) : List Nat :=
  (st.allSamples.filter
    (fun x => decide (start_time ≤ x.ts) && decide (x.ts ≤ end_time))).map TSSample.val

/-- Modelled from the spec: `query(thread_id, start, end, bucket_width)`
reads the raw sample sequence overlapping [start, end] and downsamples
it into buckets by summing samples per bucket; the returned total
cpu_time_ms is the sum of all raw samples in range (spec §4.2).  The
bucket parameter is the number of raw samples per output bucket (derived
from graph_width); it is 1 when the output unit time equals the sampling
interval.  Returns (ts_data, cpu_time_ms). -/
def TSStore.query (st : TSStore) (start_time end_time bucket : Nat) : List Nat × Nat :=
  (bucketize bucket (st.rawInRange start_time end_time),
    (st.rawInRange start_time end_time).sum)

/-- Two-byte little-endian encoding of a u16 sample value. -/
def encode16 (v : Nat) : List Nat := [v % 256, v / 256]

/-- Decode a two-byte little-endian u16 sample value. -/
def decode16 (l : List Nat) : Nat := l.headD 0 + 256 * (l.tail.headD 0)

/-- Byte stream of the store's sample data: 2 bytes per sample, in append
order (design doc: fixed-width u16 samples after the header). -/
def TSStore.dataBytes (st : TSStore) : List Nat :=
  (st.allSamples.map (fun x => encode16 x.val)).flatten

/-! ## Session query dispatcher (spec §6, §7) -/

/-- Modelled from the spec: the time-range options of a time-ranged query
request (spec §6: start_time, end_time). -/
structure TimeRangedReq where
  start_time : Nat
  end_time : Nat
  deriving Repr, DecidableEq

/-- Store accesses performed while handling a request; used to state that
a rejected request touches no storage. -/
inductive StoreAccess where
  | read
  | write
  deriving Repr, DecidableEq

/-- Modelled from the spec: a protocol response — result is "success" or
"error", with a message and the cpu_time payload fields (spec §6). -/
structure CmdResponse where
  result : String
  message : String
  ts_data : List Nat
  cpu_time_ms : Nat
  deriving Repr, DecidableEq

/-- Modelled from the spec: the dispatcher handling of a time-ranged
query (shown for cpu_time): a request with start_time > end_time is
rejected with a protocol error before touching storage
(spec §7 OutOfRangeWindow); otherwise the store is queried (a read
access) and a success response is returned.  The function returns the
response, the store after handling, and the list of store accesses
performed. -/
def dispatch_cpu_time (st : TSStore) (req : TimeRangedReq) (bucket : Nat) :
    CmdResponse × TSStore × List StoreAccess :=
  if req.end_time < req.start_time then
    (⟨"error", "start_time > end_time", [], 0⟩, st, [])
  else
    let q := st.query req.start_time req.end_time bucket
    (⟨"success", "", q.1, q.2⟩, st, [StoreAccess.read])

/-! ## Call-tree builder (spec §4.5) -/

/-- Modelled from the spec: one raw stack record as seen by the call-tree
builder — the resolved method names root→leaf and the record's cost
contribution under the requested metric (spec §4.5). -/
structure TreeRecord where
  frames : List String
  cost : Nat
  deriving Repr, DecidableEq

/-- Modelled from the spec: a call-tree node — session-local id, parent
node id (0 = root), method name, aggregated cost and call count
(spec §3 CallTreeNode, §6 call_tree tree_data). -/
structure CTNode where
  id : Nat
  parent : Nat
  name : String
  cost : Nat
  calls : Nat
  deriving Repr, DecidableEq

/-- Lookup of the working tree by its key (parent node id, method name)
(spec §4.5: "keyed by (parent node, method id)"). -/
def findNode (nodes : List CTNode) (parent : Nat) (name : String) : Option CTNode :=
  nodes.find? (fun n => decide (n.parent = parent) && decide (n.name = name))

/-- Modelled from the spec: visiting one frame — reuse the existing child
node at (parent, name) if present, incrementing its call count by 1 and
its cost by the record's contribution; otherwise create a new node with
the next sequential id (spec §4.5).  Returns the updated node list and
the id of the visited node. -/
def addFrame (nodes : List CTNode) (parent : Nat) (name : String) (cost : Nat) :
    List CTNode × Nat :=
  match findNode nodes parent name with
  | some n =>
    (nodes.map (fun m =>
      if m.id = n.id then { m with cost := m.cost + cost, calls := m.calls + 1 } else m), n.id)
  | none =>
    (nodes ++ [⟨nodes.length + 1, parent, name, cost, 1⟩], nodes.length + 1)

/-- Walk the frames of one record root→leaf below the given parent node,
visiting each frame in turn. -/
def addFrames (nodes : List CTNode) (parent : Nat) (frames : List String) (cost : Nat) :
    List CTNode :=
  match frames with
  | [] => nodes
  | f :: fs =>
    let p := addFrame nodes parent f cost
    addFrames p.1 p.2 fs cost

/-- Process one stack record into the working tree: walk its frames from
the root (parent id 0). -/
def addRecord (nodes : List CTNode) (r : TreeRecord) : List CTNode :=
  addFrames nodes 0 r.frames r.cost

/-- Modelled from the spec: the call tree built from the records of one
thread in the window, in insertion order (spec §4.5). -/
def buildTree (rs : List TreeRecord) : List CTNode :=
  rs.foldl addRecord []

/-- Root-to-node method-name path of a node, following parent pointers
(fuel-indexed; node ids exceed their parents' ids, so the node id is
sufficient fuel). -/
def nodePathGo : Nat → List CTNode → Nat → List String
  | _, _, 0 => []
  | 0, _, _ + 1 => []
  | fuel + 1, nodes, id + 1 =>
    match nodes.find? (fun n => decide (n.id = id + 1)) with
    | none => []
    | some n => nodePathGo fuel nodes n.parent ++ [n.name]

/-- Root-to-node method-name path of the node with the given id. -/
def nodePath (nodes : List CTNode) (id : Nat) : List String :=
  nodePathGo id nodes id

/-- Does the path p start the frame list l (p is a root-prefix of l)? -/
def rootStart (p l : List String) : Bool := decide (l.take p.length = p)

/-- Records of rs contributing to the chain node at path p: those whose
frames have p as a root-prefix. -/
def contributing (rs : List TreeRecord) (p : List String) : List TreeRecord :=
  rs.filter (fun r => rootStart p r.frames)

/-- Call count the spec ascribes to the chain node at path p: the number
of contributing records (spec §4.5: call count increments by 1 per
record visiting the node). -/
def specCalls (rs : List TreeRecord) (p : List String) : Nat :=
  (contributing rs p).length

/-- Cost the spec ascribes to the chain node at path p: the sum of the
contributing records' cost contributions (spec §4.5). -/
def specCost (rs : List TreeRecord) (p : List String) : Nat :=
  ((contributing rs p).map TreeRecord.cost).sum

/-- Structural well-formedness of the working tree: ids are positive and
bounded by the node count, ids are unique, every parent id is smaller
than its node's id, and the key (parent, name) identifies a node
uniquely (spec §4.5: the tree is keyed by (parent node, method id)). -/
def TreeWF (ns : List CTNode) : Prop :=
  (∀ n ∈ ns, 1 ≤ n.id ∧ n.id ≤ ns.length) ∧
  (∀ n m, n ∈ ns → m ∈ ns → n.id = m.id → n = m) ∧
  (∀ n ∈ ns, n.parent < n.id) ∧
  (∀ n ∈ ns, n.parent = 0 ∨ ∃ m ∈ ns, m.id = n.parent) ∧
  (∀ n m, n ∈ ns → m ∈ ns → n.parent = m.parent → n.name = m.name → n = m)

/-- Semantic state of the working tree in the middle of inserting one
record rec, after its root-prefix P has been walked: every node whose
path is a nonempty root-prefix of P has already received rec's
contribution on top of the aggregate over the fully processed records
rs; every other node carries exactly the aggregate over rs. -/
def WalkSem (rs : List TreeRecord) (rec : TreeRecord) (P : List String)
    (ns : List CTNode) : Prop :=
  ∀ n ∈ ns,
    n.calls = specCalls rs (nodePath ns n.id) +
      (if rootStart (nodePath ns n.id) P = true ∧ nodePath ns n.id ≠ [] then 1 else 0) ∧
    n.cost = specCost rs (nodePath ns n.id) +
      (if rootStart (nodePath ns n.id) P = true ∧ nodePath ns n.id ≠ [] then rec.cost else 0)

/-- Full invariant of the frame walk inserting the record rec: after its
root-prefix P has been consumed with the cursor at node parentId (0 at
the root), the tree is structurally well-formed, every node has a
nonempty path, paths identify nodes uniquely, node values satisfy
WalkSem, the cursor node realizes P, every nonempty root-prefix of P has
a node, and every nonempty root-prefix of every processed record has a
node. -/
def WalkInv (rs : List TreeRecord) (rec : TreeRecord) (P : List String)
    (parentId : Nat) (ns : List CTNode) : Prop :=
  TreeWF ns ∧
  (∀ n ∈ ns, nodePath ns n.id ≠ []) ∧
  (∀ n m, n ∈ ns → m ∈ ns → nodePath ns n.id = nodePath ns m.id → n = m) ∧
  WalkSem rs rec P ns ∧
  ((P = [] ∧ parentId = 0) ∨ (∃ n ∈ ns, n.id = parentId ∧ nodePath ns n.id = P)) ∧
  (∀ k, 1 ≤ k → k ≤ P.length → ∃ n ∈ ns, nodePath ns n.id = P.take k) ∧
  (∀ r ∈ rs, ∀ k, 1 ≤ k → k ≤ r.frames.length →
    ∃ n ∈ ns, nodePath ns n.id = r.frames.take k)

/-- Example records of spec §8: [Thread.run, MyTask.do_job] with cost 20
and [Thread.run] with cost 40, for one thread. -/
def exampleRecords : List TreeRecord :=
  [⟨["Thread.run()", "MyTask.do_job()"], 20⟩, ⟨["Thread.run()"], 40⟩]

/-- Literal tree_data sample of the design document (src/unnamed/part_000,
call_tree response example): node 1 Thread.run() cost 60 calls 1, node 2
(parent 1) MyTask.do_job() cost 20 calls 2. -/
def docTreeData : List CTNode :=
  [⟨1, 0, "Thread.run()", 60, 1⟩, ⟨2, 1, "MyTask.do_job()", 20, 2⟩]

/-! ## Electron UI shell (src/flare-ui/main/src/main.js) -/

/-- State of one browser window (minimized / focused flags), as driven by
restore() and focus() in main.js. -/
structure BrowserWindow where
  minimized : Bool
  focused : Bool
  deriving Repr, DecidableEq

/-- Application state of the Electron main process: the mainWindow
variable (main.js line 7), the number of open windows, and whether
app.quit() has been called. -/
structure AppState where
  mainWindow : Option BrowserWindow
  openWindows : Nat
  quitted : Bool
  deriving Repr, DecidableEq

/-- Initial state: no window, not quitted. -/
def AppState.init : AppState := ⟨none, 0, false⟩

/-- Events of the Electron app lifecycle handled in main.js: 'ready',
'window-all-closed', 'activate', 'second-instance', and the main
window's 'closed' event. -/
inductive AppEvent where
  | ready
  | windowAllClosed
  | activate
  | secondInstance
  | windowClosed
  deriving Repr, DecidableEq

/-- createWindow (main.js lines 14–39): opens a new BrowserWindow and
assigns it to mainWindow. -/
def createWindow (st : AppState) : AppState :=
  { st with mainWindow := some ⟨false, true⟩, openWindows := st.openWindows + 1 }

/-- Event handlers of main.js: 'ready' calls createWindow (line 61);
'window-all-closed' calls app.quit() iff process.platform is not
'darwin' (lines 71–75); 'activate' calls createWindow only when
mainWindow is null (lines 77–81); 'second-instance' restores the main
window if minimized and focuses it, creating nothing (lines 96–101);
the window's 'closed' handler sets mainWindow to null (lines 36–38). -/
def onEvent (platform : String) (st : AppState) : AppEvent → AppState
  | .ready => createWindow st
  | .windowAllClosed =>
    if platform ≠ "darwin" then { st with quitted := true } else st
  | .activate =>
    if st.mainWindow = none then createWindow st else st
  | .secondInstance =>
    match st.mainWindow with
    | some w => { st with mainWindow := some { w with minimized := false, focused := true } }
    | none => st
  | .windowClosed =>
    { st with mainWindow := none, openWindows := st.openWindows - 1 }

/-- Run a sequence of app events from a state. -/
def runEvents (platform : String) (st : AppState) (evs : List AppEvent) : AppState :=
  evs.foldl (onEvent platform) st

/-- Window-count well-formedness: the open-window count matches whether
the mainWindow variable holds a window. -/
def WFWin (st : AppState) : Prop :=
  st.openWindows = (if st.mainWindow.isSome then 1 else 0)

/-! ## Lemmas: serialization of the call-stack data stream -/

theorem getLast?_mem {α : Type} {l : List α} {a : α} (h : l.getLast? = some a) : a ∈ l := by
  obtain ⟨hne, rfl⟩ := List.mem_getLast?_eq_getLast (l := l) (x := a) h
  exact l.getLast_mem hne

theorem serializeAll_nil : serializeAll [] = [] := rfl

theorem serializeAll_cons (r : StackRecord) (rs : List StackRecord) :
    serializeAll (r :: rs) = serializeRecord r ++ serializeAll rs := by
  simp [serializeAll]

theorem serializeAll_append (a b : List StackRecord) :
    serializeAll (a ++ b) = serializeAll a ++ serializeAll b := by
  simp [serializeAll]

theorem serializeRecord_length (r : StackRecord) :
    (serializeRecord r).length = r.frames.length + 2 := by
  simp [serializeRecord]

theorem deserializeGo_nil (f : Nat) : deserializeGo f [] = .ok [] := by
  cases f <;> rfl

theorem deserializeGo_fuel :
    ∀ (f1 f2 : Nat) (l : List Nat), l.length ≤ f1 → l.length ≤ f2 →
      deserializeGo f1 l = deserializeGo f2 l := by
  intro f1
  induction f1 with
  | zero =>
    intro f2 l h1 _
    cases l with
    | nil => rw [deserializeGo_nil, deserializeGo_nil]
    | cons x xs => simp at h1
  | succ f ih =>
    intro f2 l h1 h2
    cases l with
    | nil => rw [deserializeGo_nil, deserializeGo_nil]
    | cons len rest =>
      cases f2 with
      | zero => simp at h2
      | succ f2' =>
        simp only [List.length_cons] at h1 h2
        simp only [deserializeGo]
        rw [ih f2' (rest.drop len) (by simp [List.length_drop]; omega)
          (by simp [List.length_drop]; omega)]

theorem deserializeFrom_nil : deserializeFrom [] = .ok [] := rfl

theorem deserializeFrom_cons_record (r : StackRecord) (t : List Nat) :
    deserializeFrom (serializeRecord r ++ t) =
      match deserializeFrom t with
      | .ok tl => .ok (r :: tl)
      | .error e => .error e := by
  have hshape : serializeRecord r ++ t =
      (r.frames.length + 1) :: (r.step :: (r.frames ++ t)) := by
    simp [serializeRecord]
  have hlen : (serializeRecord r ++ t).length = (r.frames.length + t.length + 1) + 1 := by
    rw [hshape]; simp
  unfold deserializeFrom
  rw [hlen, hshape]
  simp only [deserializeGo]
  rw [if_neg (by simp), if_neg (by omega)]
  have htake : (r.step :: (r.frames ++ t)).take (r.frames.length + 1) = r.step :: r.frames := by
    simp [List.take_succ_cons, List.take_left]
  have hdrop : (r.step :: (r.frames ++ t)).drop (r.frames.length + 1) = t := by
    simp [List.drop_succ_cons, List.drop_left]
  rw [htake, hdrop,
    deserializeGo_fuel (r.frames.length + t.length + 1) t.length t (by omega) (by omega)]
  have hd : deserializeGo t.length t = deserializeFrom t := rfl
  rw [hd]
  cases deserializeFrom t <;> rfl

theorem deserializeFrom_append (rs : List StackRecord) (t : List Nat)
    (ht : deserializeFrom t = .ok []) :
    deserializeFrom (serializeAll rs ++ t) = .ok rs := by
  induction rs with
  | nil => simpa [serializeAll_nil] using ht
  | cons r rs' ih =>
    rw [serializeAll_cons, List.append_assoc, deserializeFrom_cons_record, ih]

theorem deserializeFrom_serializeAll (rs : List StackRecord) :
    deserializeFrom (serializeAll rs) = .ok rs := by
  have := deserializeFrom_append rs [] deserializeFrom_nil
  simpa using this

theorem deserializeFrom_take_record (r : StackRecord) (m : Nat)
    (hm : m < (serializeRecord r).length) :
    deserializeFrom ((serializeRecord r).take m) = .ok [] := by
  cases m with
  | zero => simp [deserializeFrom_nil]
  | succ m' =>
    rw [serializeRecord_length] at hm
    have hshape : (serializeRecord r).take (m' + 1) =
        (r.frames.length + 1) :: ((r.step :: r.frames).take m') := by
      simp [serializeRecord, List.take_succ_cons]
    rw [hshape]
    have hlen : ((r.step :: r.frames).take m').length = m' := by
      simp; omega
    unfold deserializeFrom
    have hl2 : ((r.frames.length + 1) :: (r.step :: r.frames).take m').length = m' + 1 := by
      simp [hlen]
    rw [hl2]
    simp only [deserializeGo]
    rw [if_pos (by rw [hlen]; omega)]

/-! ## Lemmas: the checkpoint index of a reachable store -/

/-- Validity of one checkpoint entry relative to the appended records:
the entry's offset is the start of some record whose step is the entry's
step, and every earlier record has a strictly smaller step. -/
def GoodEntry (rs : List StackRecord) (p : Nat × Nat) : Prop :=
  ∃ pre r post, rs = pre ++ r :: post ∧ p.1 = r.step ∧
    p.2 = (serializeAll pre).length ∧ ∀ q ∈ pre, q.step < r.step

/-- Invariant of a store reachable by appending rs with interval N. -/
def StoreInv (N : Nat) (rs : List StackRecord) (st : IdxStore) : Prop :=
  st.data = serializeAll rs ∧
  (∀ p ∈ st.index, GoodEntry rs p) ∧
  List.Pairwise (fun p q : Nat × Nat => p.1 < q.1 ∧ p.2 < q.2) st.index ∧
  (match st.index.getLast? with
   | none => rs = []
   | some p => ∀ q ∈ rs, q.step < p.1 + N)

theorem goodEntry_extend (rs : List StackRecord) (r : StackRecord) (p : Nat × Nat)
    (h : GoodEntry rs p) : GoodEntry (rs ++ [r]) p := by
  obtain ⟨pre, r', post, hrs, h1, h2, h3⟩ := h
  exact ⟨pre, r', post ++ [r], by rw [hrs]; simp, h1, h2, h3⟩

theorem append_shape_ckpt (N : Nat) (st : IdxStore) (r : StackRecord)
    (h : match st.index.getLast? with
         | none => True
         | some p => p.1 + N ≤ r.step) :
    st.append N r =
      ⟨st.data ++ serializeRecord r, st.index ++ [(r.step, st.data.length)]⟩ := by
  unfold IdxStore.append
  cases hL : st.index.getLast? with
  | none => simp
  | some q0 =>
    rw [hL] at h
    simp [show q0.1 + N ≤ r.step from h]

theorem append_shape_nockpt (N : Nat) (st : IdxStore) (r : StackRecord) (q0 : Nat × Nat)
    (hL : st.index.getLast? = some q0) (h : ¬ q0.1 + N ≤ r.step) :
    st.append N r = ⟨st.data ++ serializeRecord r, st.index⟩ := by
  unfold IdxStore.append
  simp [hL, h]

theorem storeInv_append (N : Nat) (hN : 1 ≤ N) (rs : List StackRecord) (st : IdxStore)
    (inv : StoreInv N rs st) (r : StackRecord) (hmono : ∀ q ∈ rs, q.step ≤ r.step) :
    StoreInv N (rs ++ [r]) (st.append N r) := by
  obtain ⟨hdata, hgood, hpair, hlast⟩ := inv
  cases hL : st.index.getLast? with
  | none =>
    have hidx : st.index = [] := List.getLast?_eq_none_iff.mp hL
    have hrs : rs = [] := by rw [hL] at hlast; exact hlast
    subst hrs
    have hd0 : st.data = [] := by simpa [serializeAll_nil] using hdata
    rw [append_shape_ckpt N st r (by rw [hL]; trivial)]
    refine ⟨?_, ?_, ?_, ?_⟩
    · simp [hd0, serializeAll_cons, serializeAll_nil]
    · intro p hp
      simp only [hidx, List.nil_append, List.mem_singleton] at hp
      exact ⟨[], r, [], by simp, by simp [hp, hd0], by simp [hp, hd0, serializeAll_nil], by simp⟩
    · simp [hidx]
    · simp only [hidx, List.nil_append, List.getLast?_singleton]
      intro q hq
      simp only [List.nil_append, List.mem_singleton] at hq
      subst hq
      exact Nat.lt_add_of_pos_right (by omega)
  | some q0 =>
    have hlastq : ∀ q ∈ rs, q.step < q0.1 + N := by rw [hL] at hlast; exact hlast
    by_cases hck : q0.1 + N ≤ r.step
    · -- a checkpoint is written for r
      rw [append_shape_ckpt N st r (by rw [hL]; exact hck)]
      refine ⟨?_, ?_, ?_, ?_⟩
      · simp [hdata, serializeAll_append, serializeAll_cons, serializeAll_nil]
      · intro p hp
        simp only [List.mem_append, List.mem_singleton] at hp
        rcases hp with hp | hp
        · exact goodEntry_extend rs r p (hgood p hp)
        · refine ⟨rs, r, [], by simp, by simp [hp], by simp [hp, hdata], ?_⟩
          intro q hq
          exact lt_of_lt_of_le (hlastq q hq) hck
      · rw [List.pairwise_append]
        refine ⟨hpair, by simp, ?_⟩
        intro a ha b hb
        simp only [List.mem_singleton] at hb
        subst hb
        obtain ⟨pre, r', post, hrs, h1, h2, h3⟩ := hgood a ha
        constructor
        · rw [h1]
          exact lt_of_lt_of_le (hlastq r' (by rw [hrs]; simp)) hck
        · rw [h2, hdata, hrs, serializeAll_append, serializeAll_cons]
          simp [serializeRecord_length]
      · simp only [List.getLast?_concat]
        intro q hq
        simp only [List.mem_append, List.mem_singleton] at hq
        rcases hq with hq | hq
        · exact lt_of_lt_of_le (hlastq q hq) (by omega)
        · subst hq; omega
    · -- no checkpoint: the index is unchanged
      rw [append_shape_nockpt N st r q0 hL hck]
      refine ⟨?_, ?_, ?_, ?_⟩
      · simp [hdata, serializeAll_append, serializeAll_cons, serializeAll_nil]
      · intro p hp
        exact goodEntry_extend rs r p (hgood p hp)
      · exact hpair
      · simp only [hL]
        intro q hq
        simp only [List.mem_append, List.mem_singleton] at hq
        rcases hq with hq | hq
        · exact hlastq q hq
        · subst hq; omega

theorem stepsMono_snoc (rs : List StackRecord) (r : StackRecord)
    (h : StepsMono (rs ++ [r])) : StepsMono rs ∧ ∀ q ∈ rs, q.step ≤ r.step := by
  rw [StepsMono, List.pairwise_append] at h
  exact ⟨h.1, fun q hq => h.2.2 q hq r (by simp)⟩

theorem storeInv_build (N : Nat) (hN : 1 ≤ N) (rs : List StackRecord)
    (hmono : StepsMono rs) : StoreInv N rs (buildStore N rs) := by
  induction rs using List.reverseRecOn with
  | nil =>
    refine ⟨rfl, by simp [buildStore, IdxStore.empty], by simp [buildStore, IdxStore.empty], ?_⟩
    simp [buildStore, IdxStore.empty]
  | append_singleton rs r ih =>
    obtain ⟨hm1, hm2⟩ := stepsMono_snoc rs r hmono
    have hfold : buildStore N (rs ++ [r]) = (buildStore N rs).append N r := by
      simp [buildStore, List.foldl_append]
    rw [hfold]
    exact storeInv_append N hN rs (buildStore N rs) (ih hm1) r hm2

/-! ## Lemmas: range scan and range read -/

theorem inWindow_append (s e : Nat) (a b : List StackRecord) :
    inWindow s e (a ++ b) = inWindow s e a ++ inWindow s e b := by
  simp [inWindow, List.filter_append]

theorem inWindow_cons (s e : Nat) (r : StackRecord) (rs : List StackRecord) :
    inWindow s e (r :: rs) =
      if s ≤ r.step ∧ r.step ≤ e then r :: inWindow s e rs else inWindow s e rs := by
  by_cases h : s ≤ r.step ∧ r.step ≤ e
  · rw [if_pos h]
    simp [inWindow, List.filter_cons, h.1, h.2]
  · rw [if_neg h]
    rw [Decidable.not_and_iff_or_not] at h
    rcases h with h | h
    · simp [inWindow, List.filter_cons, h]
    · simp [inWindow, List.filter_cons, h]

theorem scanRange_eq_inWindow (s e : Nat) (rs : List StackRecord) (h : StepsMono rs) :
    scanRange s e rs = inWindow s e rs := by
  induction rs with
  | nil => rfl
  | cons r rs ih =>
    rw [StepsMono, List.pairwise_cons] at h
    obtain ⟨hr, hrs⟩ := h
    by_cases h1 : e < r.step
    · rw [scanRange, if_pos h1]
      have hnil : inWindow s e (r :: rs) = [] := by
        rw [inWindow, List.filter_eq_nil_iff]
        intro q hq
        simp only [List.mem_cons] at hq
        rcases hq with hq | hq
        · subst hq; simp; omega
        · have := hr q hq; simp; omega
      rw [hnil]
    · by_cases h2 : r.step < s
      · rw [scanRange, if_neg h1, if_pos h2, ih hrs, inWindow_cons, if_neg (by omega)]
      · rw [scanRange, if_neg h1, if_neg h2, ih hrs, inWindow_cons, if_pos (by omega)]

theorem searchIndex_entry (index : List (Nat × Nat)) (s : Nat) (p : Nat × Nat)
    (h : (index.filter (fun p => decide (p.1 ≤ s))).getLast? = some p) :
    p ∈ index ∧ p.1 ≤ s := by
  have hm := getLast?_mem h
  rw [List.mem_filter] at hm
  exact ⟨hm.1, by simpa using hm.2⟩

/-- Splitting of a suffix read: if the checkpoint entry p is valid for rs
and its step is at most s, then reading the data stream from the entry's
offset (with any well-formed tail continuation u deserializing to recs)
and scanning yields the in-window records of the suffix after the
entry's pre part.  Packaged as the concrete statement used below. -/
theorem inWindow_of_entry (s e : Nat) (rs pre : List StackRecord) (r' : StackRecord)
    (post : List StackRecord)
    (hrs : rs = pre ++ r' :: post) (hlt : ∀ q ∈ pre, q.step < r'.step) (hps : r'.step ≤ s) :
    inWindow s e rs = inWindow s e (r' :: post) := by
  rw [hrs, inWindow_append]
  have : inWindow s e pre = [] := by
    rw [inWindow, List.filter_eq_nil_iff]
    intro q hq
    have := hlt q hq
    simp
    omega
  rw [this, List.nil_append]

theorem stepsMono_suffix (rs pre tl : List StackRecord) (h : StepsMono rs)
    (hrs : rs = pre ++ tl) : StepsMono tl := by
  rw [hrs] at h
  exact h.sublist (List.sublist_append_right pre tl)

theorem read_range_eq_of_ok (st : IdxStore) (s e : Nat) (recs : List StackRecord)
    (h : deserializeFrom (st.data.drop (searchIndex st.index s)) = .ok recs) :
    st.read_range s e = .ok (scanRange s e recs) := by
  rw [IdxStore.read_range, h]

/-- Range-read over any store reachable by monotone appends, with any
index interval: the result is exactly the in-window records. -/
theorem read_range_build (N : Nat) (hN : 1 ≤ N) (rs : List StackRecord)
    (hmono : StepsMono rs) (s e : Nat) :
    (buildStore N rs).read_range s e = .ok (inWindow s e rs) := by
  obtain ⟨hdata, hgood, hpair, hlast⟩ := storeInv_build N hN rs hmono
  cases hF : (((buildStore N rs).index).filter (fun p => decide (p.1 ≤ s))).getLast? with
  | none =>
    have hoff : searchIndex (buildStore N rs).index s = 0 := by
      rw [searchIndex, hF]
    have hdes : deserializeFrom
        ((buildStore N rs).data.drop (searchIndex (buildStore N rs).index s)) = .ok rs := by
      rw [hoff, hdata, List.drop_zero, deserializeFrom_serializeAll]
    rw [read_range_eq_of_ok _ s e rs hdes, scanRange_eq_inWindow s e rs hmono]
  | some p =>
    obtain ⟨hp, hps⟩ := searchIndex_entry _ s p hF
    obtain ⟨pre, r', post, hrs, h1, h2, h3⟩ := hgood p hp
    have hoff : searchIndex (buildStore N rs).index s = p.2 := by
      rw [searchIndex, hF]
    have hdes : deserializeFrom
        ((buildStore N rs).data.drop (searchIndex (buildStore N rs).index s)) =
        .ok (r' :: post) := by
      rw [hoff, hdata, hrs, serializeAll_append, h2, List.drop_left,
        deserializeFrom_serializeAll]
    rw [read_range_eq_of_ok _ s e (r' :: post) hdes,
      scanRange_eq_inWindow s e (r' :: post) (stepsMono_suffix rs pre (r' :: post) hmono hrs),
      ← inWindow_of_entry s e rs pre r' post hrs h3 (h1 ▸ hps)]

/-! ## Lemmas: torn trailing writes -/

theorem inWindow_pre_lt (s e : Nat) (pre tl : List StackRecord)
    (h : ∀ q ∈ pre, q.step < s) : inWindow s e (pre ++ tl) = inWindow s e tl := by
  rw [inWindow_append]
  have hnil : inWindow s e pre = [] := by
    rw [inWindow, List.filter_eq_nil_iff]
    intro q hq
    have := h q hq
    simp
    omega
  rw [hnil, List.nil_append]

theorem truncData_shape (N k : Nat) (rs : List StackRecord) (r : StackRecord)
    (hk2 : k ≤ (serializeRecord r).length)
    (hdata : (buildStore N (rs ++ [r])).data = serializeAll (rs ++ [r])) :
    ((buildStore N (rs ++ [r])).truncData k).data =
      serializeAll rs ++ (serializeRecord r).take ((serializeRecord r).length - k) := by
  rw [IdxStore.truncData, hdata]
  have hsplit : serializeAll (rs ++ [r]) = serializeAll rs ++ serializeRecord r := by
    rw [serializeAll_append, serializeAll_cons, serializeAll_nil, List.append_nil]
  rw [hsplit]
  have hlen : (serializeAll rs ++ serializeRecord r).length - k =
      (serializeAll rs).length + ((serializeRecord r).length - k) := by
    simp [List.length_append]
    omega
  rw [hlen, List.take_append]

theorem deserializeFrom_torn_tail (rs : List StackRecord) (r : StackRecord) (k : Nat)
    (hk1 : 1 ≤ k) (hk2 : k ≤ (serializeRecord r).length) :
    deserializeFrom (serializeAll rs ++
      (serializeRecord r).take ((serializeRecord r).length - k)) = .ok rs := by
  apply deserializeFrom_append
  apply deserializeFrom_take_record
  have := serializeRecord_length r
  omega

/-- Reading any range over a store whose trailing record was torn by
1..N bytes succeeds and returns exactly the in-window records among the
intact ones. -/
theorem read_range_trunc (N k : Nat) (hN : 1 ≤ N) (rs : List StackRecord) (r : StackRecord)
    (hmono : StepsMono (rs ++ [r])) (hk1 : 1 ≤ k) (hk2 : k ≤ (serializeRecord r).length)
    (s e : Nat) :
    ((buildStore N (rs ++ [r])).truncData k).read_range s e = .ok (inWindow s e rs) := by
  obtain ⟨hdata, hgood, hpair, hlast⟩ := storeInv_build N hN (rs ++ [r]) hmono
  obtain ⟨hmrs, hmr⟩ := stepsMono_snoc rs r hmono
  set stt := (buildStore N (rs ++ [r])).truncData k with hstt
  have hidx : stt.index = (buildStore N (rs ++ [r])).index := rfl
  have hdata' : stt.data =
      serializeAll rs ++ (serializeRecord r).take ((serializeRecord r).length - k) :=
    truncData_shape N k rs r hk2 hdata
  cases hF : (stt.index.filter (fun p => decide (p.1 ≤ s))).getLast? with
  | none =>
    have hoff : searchIndex stt.index s = 0 := by
      rw [searchIndex, hF]
    have hdes : deserializeFrom (stt.data.drop (searchIndex stt.index s)) = .ok rs := by
      rw [hoff, List.drop_zero, hdata']
      exact deserializeFrom_torn_tail rs r k hk1 hk2
    rw [read_range_eq_of_ok stt s e rs hdes, scanRange_eq_inWindow s e rs hmrs]
  | some p =>
    obtain ⟨hp, hps⟩ := searchIndex_entry _ s p hF
    rw [hidx] at hp
    obtain ⟨pre, r', post, hrs, h1, h2, h3⟩ := hgood p hp
    have hplen : pre.length ≤ rs.length := by
      have := congrArg List.length hrs
      simp at this
      omega
    have hpre : rs.take pre.length = pre := by
      have h0 : (rs ++ [r]).take pre.length = pre := by
        rw [hrs, List.take_append_of_le_length (le_refl pre.length), List.take_length]
      rwa [List.take_append_of_le_length hplen] at h0
    have hrs2 : rs = pre ++ rs.drop pre.length := by
      conv_lhs => rw [← List.take_append_drop pre.length rs]
      rw [hpre]
    have hoff : searchIndex stt.index s = p.2 := by
      rw [searchIndex, hF]
    have hdes : deserializeFrom (stt.data.drop (searchIndex stt.index s)) =
        .ok (rs.drop pre.length) := by
      rw [hoff, hdata', h2]
      conv_lhs => rw [hrs2]
      rw [serializeAll_append, List.append_assoc, List.drop_left]
      exact deserializeFrom_torn_tail (rs.drop pre.length) r k hk1 hk2
    rw [read_range_eq_of_ok stt s e (rs.drop pre.length) hdes]
    rw [scanRange_eq_inWindow s e (rs.drop pre.length)
      (stepsMono_suffix rs pre (rs.drop pre.length) hmrs hrs2)]
    conv_rhs => rw [hrs2]
    rw [inWindow_pre_lt s e pre (rs.drop pre.length) (fun q hq => by
      have := h3 q hq
      omega)]

/-! ## Lemmas: time-series store -/

theorem allSamples_append (st : TSStore) (t m : Nat) :
    (st.append t m).allSamples = st.allSamples ++ [⟨t, clip16 m⟩] := by
  cases hc : st.current with
  | none =>
    simp [TSStore.append, TSStore.allSamples, hc]
  | some seg =>
    by_cases hrot : hourMs < t - seg.begin_time
    · simp [TSStore.append, TSStore.allSamples, hc, hrot, TSSegment.finalize,
        List.append_assoc]
    · simp [TSStore.append, TSStore.allSamples, hc, hrot, List.append_assoc]

theorem allSamples_build (inputs : List (Nat × Nat)) :
    (buildTS inputs).allSamples = inputs.map (fun x => ⟨x.1, clip16 x.2⟩) := by
  induction inputs using List.reverseRecOn with
  | nil => rfl
  | append_singleton xs x ih =>
    have hfold : buildTS (xs ++ [x]) = (buildTS xs).append x.1 x.2 := by
      simp [buildTS, List.foldl_append]
    rw [hfold, allSamples_append, ih, List.map_append]
    rfl

theorem bucketizeGo_one (f : Nat) : ∀ (l : List Nat), l.length ≤ f →
    bucketizeGo f 1 l = l := by
  induction f with
  | zero =>
    intro l hl
    cases l with
    | nil => rfl
    | cons x xs => simp at hl
  | succ f ih =>
    intro l hl
    cases l with
    | nil => rfl
    | cons x xs =>
      rw [bucketizeGo]
      simp only [List.take_succ_cons, List.take_zero, List.drop_succ_cons, List.drop_zero,
        List.sum_cons, List.sum_nil]
      rw [ih xs (by simpa using hl)]
      simp

theorem bucketize_one (l : List Nat) : bucketize 1 l = l := by
  rw [bucketize]
  have hmax : max 1 1 = 1 := rfl
  rw [hmax]
  exact bucketizeGo_one l.length l le_rfl

/-- Round trip of the time-series store: querying the full range with
one sample per bucket returns exactly the appended (clipped) values and
their sum. -/
theorem query_full (inputs : List (Nat × Nat)) (s e : Nat)
    (hin : ∀ x ∈ inputs, s ≤ x.1 ∧ x.1 ≤ e) :
    (buildTS inputs).query s e 1 =
      (inputs.map (fun x => clip16 x.2), (inputs.map (fun x => clip16 x.2)).sum) := by
  have hraw : (buildTS inputs).rawInRange s e = inputs.map (fun x => clip16 x.2) := by
    rw [TSStore.rawInRange, allSamples_build]
    have hfil : (inputs.map (fun x => (⟨x.1, clip16 x.2⟩ : TSSample))).filter
        (fun x => decide (s ≤ x.ts) && decide (x.ts ≤ e)) =
        inputs.map (fun x => ⟨x.1, clip16 x.2⟩) := by
      rw [List.filter_eq_self]
      intro a ha
      rw [List.mem_map] at ha
      obtain ⟨x, hx, rfl⟩ := ha
      have hx2 := hin x hx
      simp only [Bool.and_eq_true, decide_eq_true_eq]
      exact ⟨hx2.1, hx2.2⟩
    rw [hfil, List.map_map]
    rfl
  rw [TSStore.query, hraw, bucketize_one]

theorem ts_append_rotates (st : TSStore) (seg : TSSegment) (t m : Nat)
    (hc : st.current = some seg) (hrot : hourMs < t - seg.begin_time) :
    st.append t m = ⟨st.closed ++ [seg.finalize], some ⟨t, none, [⟨t, clip16 m⟩]⟩⟩ := by
  unfold TSStore.append
  rw [hc]
  simp [hrot]

theorem finalize_fields (seg : TSSegment) :
    seg.finalize.samples = seg.samples ∧ seg.finalize.begin_time = seg.begin_time ∧
      seg.finalize.end_time.isSome = true := by
  simp [TSSegment.finalize]

theorem dataBytes_append (st : TSStore) (t m : Nat) :
    (st.append t m).dataBytes = st.dataBytes ++ encode16 (clip16 m) := by
  rw [TSStore.dataBytes, TSStore.dataBytes, allSamples_append, List.map_append,
    List.flatten_append]
  rfl

theorem encode16_length (v : Nat) : (encode16 v).length = 2 := rfl

theorem decode16_encode16 (v : Nat) : decode16 (encode16 v) = v := by
  rw [encode16, decode16]
  simp only [List.headD_cons, List.tail_cons]
  exact Nat.mod_add_div v 256

/-! ## Lemmas: Electron window lifecycle -/

theorem wfwin_onEvent (pf : String) (st : AppState) (ev : AppEvent) (hev : ev ≠ .ready)
    (h : WFWin st) : WFWin (onEvent pf st ev) := by
  rw [WFWin] at h
  cases ev with
  | ready => exact absurd rfl hev
  | windowAllClosed =>
    rw [onEvent]
    by_cases hp : pf ≠ "darwin"
    · rw [if_pos hp]; exact h
    · rw [if_neg hp]; exact h
  | activate =>
    rw [onEvent]
    by_cases hw : st.mainWindow = none
    · rw [if_pos hw, WFWin, createWindow]
      simp [hw] at h
      simp [h]
    · rw [if_neg hw]; exact h
  | secondInstance =>
    rw [onEvent]
    cases hw : st.mainWindow with
    | none => exact h
    | some w =>
      rw [WFWin]
      simp only [Option.isSome_some]
      simp [hw] at h
      simp [h]
  | windowClosed =>
    rw [onEvent, WFWin]
    simp only [Option.isSome_none]
    by_cases hw : st.mainWindow.isSome
    · simp [hw] at h; simp [h]
    · simp at hw; simp [hw] at h; simp [h]

theorem wfwin_run (pf : String) (evs : List AppEvent) : ∀ (st : AppState),
    AppEvent.ready ∉ evs → WFWin st → WFWin (runEvents pf st evs) := by
  induction evs with
  | nil => intro st _ h; exact h
  | cons ev evs ih =>
    intro st hev h
    rw [runEvents, List.foldl_cons]
    have hev1 : ev ≠ .ready := by
      intro hc; exact hev (by rw [hc]; exact List.mem_cons_self _ _)
    have hev2 : AppEvent.ready ∉ evs := by
      intro hc; exact hev (List.mem_cons_of_mem _ hc)
    exact ih (onEvent pf st ev) hev2 (wfwin_onEvent pf st ev hev1 h)

theorem wfwin_le_one (st : AppState) (h : WFWin st) : st.openWindows ≤ 1 := by
  rw [WFWin] at h
  by_cases hw : st.mainWindow.isSome
  · simp [hw] at h; omega
  · simp at hw; simp [hw] at h; omega

/-! ## Lemmas: call-tree builder -/

theorem rootStart_nil_left (l : List String) : rootStart [] l = true := by
  simp [rootStart]

theorem rootStart_refl (p : List String) : rootStart p p = true := by
  simp [rootStart]

theorem rootStart_nil_right (p : List String) : rootStart p [] = true ↔ p = [] := by
  simp [rootStart, eq_comm]

theorem rootStart_length_le (p l : List String) (h : rootStart p l = true) :
    p.length ≤ l.length := by
  simp only [rootStart, decide_eq_true_eq] at h
  have hl := congrArg List.length h
  simp only [List.length_take] at hl
  omega

theorem rootStart_take (p l : List String) (h : rootStart p l = true) :
    l.take p.length = p := by
  simpa [rootStart] using h

theorem rootStart_of_take (l : List String) (k : Nat) (hk : k ≤ l.length) :
    rootStart (l.take k) l = true := by
  simp only [rootStart, decide_eq_true_eq, List.length_take]
  have hmin : min k l.length = k := by omega
  rw [hmin]

theorem rootStart_snoc (p P : List String) (f : String) :
    rootStart p (P ++ [f]) = true ↔ rootStart p P = true ∨ p = P ++ [f] := by
  constructor
  · intro h
    by_cases hlen : p.length ≤ P.length
    · left
      simp only [rootStart, decide_eq_true_eq] at h ⊢
      rwa [List.take_append_of_le_length hlen] at h
    · right
      have hle := rootStart_length_le p (P ++ [f]) h
      simp only [List.length_append, List.length_singleton] at hle
      have hfull : (P ++ [f]).take p.length = P ++ [f] :=
        List.take_of_length_le (by simp; omega)
      simp only [rootStart, decide_eq_true_eq] at h
      rw [hfull] at h
      exact h.symm
  · intro h
    rcases h with h | h
    · simp only [rootStart, decide_eq_true_eq] at h ⊢
      have hlen : p.length ≤ P.length := by
        have := congrArg List.length h
        simp only [List.length_take] at this
        omega
      rw [List.take_append_of_le_length hlen]
      exact h
    · subst h
      exact rootStart_refl _

theorem rootStart_snoc_self (P : List String) (f : String) :
    rootStart (P ++ [f]) P = false := by
  cases h : rootStart (P ++ [f]) P with
  | false => rfl
  | true =>
    have := rootStart_length_le _ _ h
    simp at this

theorem find?_of_mem_unique {α : Type} (p : α → Bool) (l : List α) (a : α)
    (ha : a ∈ l) (hp : p a = true) (uniq : ∀ b ∈ l, p b = true → b = a) :
    l.find? p = some a := by
  induction l with
  | nil => cases ha
  | cons x xs ih =>
    cases hx : p x with
    | true =>
      rw [List.find?_cons_of_pos _ hx]
      rw [uniq x (List.mem_cons_self x xs) hx]
    | false =>
      rw [List.find?_cons_of_neg _ (by simp [hx])]
      have hax : a ∈ xs := by
        rcases List.mem_cons.mp ha with h | h
        · subst h; rw [hp] at hx; cases hx
        · exact h
      exact ih hax (fun b hb hpb => uniq b (List.mem_cons_of_mem _ hb) hpb)

theorem nodePathGo_zero_id (f : Nat) (ns : List CTNode) : nodePathGo f ns 0 = [] := by
  cases f <;> rfl

theorem nodePath_zero (ns : List CTNode) : nodePath ns 0 = [] := rfl

theorem nodePathGo_fuel (ns : List CTNode) (hplt : ∀ n ∈ ns, n.parent < n.id) :
    ∀ f1 f2 id, id ≤ f1 → id ≤ f2 → nodePathGo f1 ns id = nodePathGo f2 ns id := by
  intro f1
  induction f1 with
  | zero =>
    intro f2 id h1 _
    have hid : id = 0 := by omega
    subst hid
    rw [nodePathGo_zero_id, nodePathGo_zero_id]
  | succ f ih =>
    intro f2 id h1 h2
    cases id with
    | zero => rw [nodePathGo_zero_id, nodePathGo_zero_id]
    | succ i =>
      cases f2 with
      | zero => omega
      | succ f2' =>
        simp only [nodePathGo]
        cases hfind : ns.find? (fun n => decide (n.id = i + 1)) with
        | none => rfl
        | some n =>
          have hn : n ∈ ns := List.mem_of_find?_eq_some hfind
          have hid : n.id = i + 1 := by simpa using List.find?_some hfind
          have hpn := hplt n hn
          show nodePathGo f ns n.parent ++ [n.name] = nodePathGo f2' ns n.parent ++ [n.name]
          rw [ih f2' n.parent (by omega) (by omega)]

theorem nodePath_node (ns : List CTNode)
    (huniq : ∀ a b, a ∈ ns → b ∈ ns → a.id = b.id → a = b)
    (hplt : ∀ a ∈ ns, a.parent < a.id) (n : CTNode) (hn : n ∈ ns) (hpos : 1 ≤ n.id) :
    nodePath ns n.id = nodePath ns n.parent ++ [n.name] := by
  obtain ⟨i, hi⟩ : ∃ i, n.id = i + 1 := ⟨n.id - 1, by omega⟩
  have hfind : ns.find? (fun m => decide (m.id = i + 1)) = some n := by
    apply find?_of_mem_unique _ ns n hn
    · simp [hi]
    · intro b hb hpb
      simp only [decide_eq_true_eq] at hpb
      exact huniq b n hb hn (by rw [hpb, hi])
  rw [nodePath, hi]
  simp only [nodePathGo]
  rw [hfind]
  show nodePathGo i ns n.parent ++ [n.name] = nodePath ns n.parent ++ [n.name]
  rw [nodePath]
  congr 1
  have hpn := hplt n hn
  exact nodePathGo_fuel ns hplt i n.parent n.parent (by omega) (le_refl _)

theorem find?_map_id_pred (ns : List CTNode) (g : CTNode → CTNode)
    (hg : ∀ m, (g m).id = m.id) (i : Nat) :
    (ns.map g).find? (fun n => decide (n.id = i)) =
      (ns.find? (fun n => decide (n.id = i))).map g := by
  induction ns with
  | nil => rfl
  | cons x xs ih =>
    simp only [List.map_cons]
    by_cases hx : x.id = i
    · rw [List.find?_cons_of_pos _ (by simp [hg x, hx]),
        List.find?_cons_of_pos _ (by simp [hx])]
      rfl
    · rw [List.find?_cons_of_neg _ (by simp [hg x, hx]),
        List.find?_cons_of_neg _ (by simp [hx]), ih]

theorem nodePathGo_map_update (ns : List CTNode) (g : CTNode → CTNode)
    (hg : ∀ m, (g m).id = m.id ∧ (g m).parent = m.parent ∧ (g m).name = m.name) :
    ∀ f id, nodePathGo f (ns.map g) id = nodePathGo f ns id := by
  intro f
  induction f with
  | zero => intro id; cases id <;> rfl
  | succ f ih =>
    intro id
    cases id with
    | zero => rfl
    | succ i =>
      simp only [nodePathGo]
      rw [find?_map_id_pred ns g (fun m => (hg m).1) (i + 1)]
      cases hfind : ns.find? (fun n => decide (n.id = i + 1)) with
      | none => rfl
      | some n =>
        show nodePathGo f (ns.map g) (g n).parent ++ [(g n).name] =
          nodePathGo f ns n.parent ++ [n.name]
        rw [(hg n).2.1, (hg n).2.2, ih]

theorem nodePath_map_update (ns : List CTNode) (g : CTNode → CTNode)
    (hg : ∀ m, (g m).id = m.id ∧ (g m).parent = m.parent ∧ (g m).name = m.name)
    (id : Nat) : nodePath (ns.map g) id = nodePath ns id := by
  rw [nodePath, nodePath, nodePathGo_map_update ns g hg]

theorem nodePathGo_extend (ns : List CTNode) (n0 : CTNode)
    (hbound : ∀ m ∈ ns, m.id ≤ ns.length) (hfresh : ns.length + 1 ≤ n0.id)
    (hplt : ∀ m ∈ ns, m.parent < m.id) :
    ∀ f id, id ≤ ns.length → nodePathGo f (ns ++ [n0]) id = nodePathGo f ns id := by
  intro f
  induction f with
  | zero => intro id _; cases id <;> rfl
  | succ f ih =>
    intro id hid
    cases id with
    | zero => rfl
    | succ i =>
      simp only [nodePathGo]
      rw [List.find?_append]
      cases hfind : ns.find? (fun n => decide (n.id = i + 1)) with
      | some n =>
        have hn : n ∈ ns := List.mem_of_find?_eq_some hfind
        have hpn := hplt n hn
        show nodePathGo f (ns ++ [n0]) n.parent ++ [n.name] =
          nodePathGo f ns n.parent ++ [n.name]
        have hidn : n.id = i + 1 := by simpa using List.find?_some hfind
        rw [ih n.parent (by have := hbound n hn; omega)]
      | none =>
        have h0 : [n0].find? (fun n => decide (n.id = i + 1)) = none := by
          rw [List.find?_cons_of_neg _ (by simp; omega), List.find?_nil]
        rw [h0]
        rfl

theorem nodePath_extend (ns : List CTNode) (n0 : CTNode)
    (hbound : ∀ m ∈ ns, m.id ≤ ns.length) (hfresh : ns.length + 1 ≤ n0.id)
    (hplt : ∀ m ∈ ns, m.parent < m.id) (id : Nat) (hid : id ≤ ns.length) :
    nodePath (ns ++ [n0]) id = nodePath ns id := by
  rw [nodePath, nodePath, nodePathGo_extend ns n0 hbound hfresh hplt id id hid]

theorem nodePath_new (ns : List CTNode) (n0 : CTNode)
    (hbound : ∀ m ∈ ns, m.id ≤ ns.length) (hid0 : n0.id = ns.length + 1)
    (hplt : ∀ m ∈ ns, m.parent < m.id) (hpar : n0.parent ≤ ns.length) :
    nodePath (ns ++ [n0]) n0.id = nodePath ns n0.parent ++ [n0.name] := by
  rw [nodePath, hid0]
  simp only [nodePathGo]
  have hfind : (ns ++ [n0]).find? (fun n => decide (n.id = ns.length + 1)) = some n0 := by
    rw [List.find?_append]
    have h1 : ns.find? (fun n => decide (n.id = ns.length + 1)) = none := by
      rw [List.find?_eq_none]
      intro m hm
      have := hbound m hm
      simp
      omega
    rw [h1, List.find?_cons_of_pos _ (by simp [hid0])]
    rfl
  rw [hfind]
  show nodePathGo ns.length (ns ++ [n0]) n0.parent ++ [n0.name] =
    nodePath ns n0.parent ++ [n0.name]
  congr 1
  rw [nodePathGo_extend ns n0 hbound (by omega) hplt ns.length n0.parent hpar, nodePath]
  exact nodePathGo_fuel ns hplt ns.length n0.parent n0.parent hpar (le_refl _)

theorem findNode_some (ns : List CTNode) (p : Nat) (f : String) (n : CTNode)
    (h : findNode ns p f = some n) : n ∈ ns ∧ n.parent = p ∧ n.name = f := by
  rw [findNode] at h
  refine ⟨List.mem_of_find?_eq_some h, ?_⟩
  have := List.find?_some h
  simp only [Bool.and_eq_true, decide_eq_true_eq] at this
  exact this

theorem findNode_none (ns : List CTNode) (p : Nat) (f : String)
    (h : findNode ns p f = none) : ∀ n ∈ ns, ¬(n.parent = p ∧ n.name = f) := by
  rw [findNode, List.find?_eq_none] at h
  intro n hn hc
  have := h n hn
  simp [hc.1, hc.2] at this

theorem addFrame_found (ns : List CTNode) (pid : Nat) (f : String) (c : Nat) (n : CTNode)
    (h : findNode ns pid f = some n) :
    addFrame ns pid f c =
      (ns.map (fun m => if m.id = n.id then
        { m with cost := m.cost + c, calls := m.calls + 1 } else m), n.id) := by
  rw [addFrame, h]

theorem addFrame_new (ns : List CTNode) (pid : Nat) (f : String) (c : Nat)
    (h : findNode ns pid f = none) :
    addFrame ns pid f c = (ns ++ [⟨ns.length + 1, pid, f, c, 1⟩], ns.length + 1) := by
  rw [addFrame, h]

theorem specCalls_snoc (rs : List TreeRecord) (r : TreeRecord) (p : List String) :
    specCalls (rs ++ [r]) p =
      specCalls rs p + (if rootStart p r.frames = true then 1 else 0) := by
  rw [specCalls, specCalls, contributing, contributing, List.filter_append,
    List.length_append]
  congr 1
  by_cases h : rootStart p r.frames = true
  · simp [List.filter_cons, h]
  · simp only [Bool.not_eq_true] at h
    simp [List.filter_cons, h]

theorem specCost_snoc (rs : List TreeRecord) (r : TreeRecord) (p : List String) :
    specCost (rs ++ [r]) p =
      specCost rs p + (if rootStart p r.frames = true then r.cost else 0) := by
  rw [specCost, specCost, contributing, contributing, List.filter_append,
    List.map_append, List.sum_append]
  congr 1
  by_cases h : rootStart p r.frames = true
  · simp [List.filter_cons, h]
  · simp only [Bool.not_eq_true] at h
    simp [List.filter_cons, h]

/-- Derivation of a node's key from its path: in a well-formed tree with
injective nonempty paths, a node whose path is P ++ [f], with the walk
cursor realizing P at parentId, necessarily has key (parentId, f). -/
theorem node_at_path_key (ns : List CTNode)
    (hwf : TreeWF ns)
    (hne : ∀ n ∈ ns, nodePath ns n.id ≠ [])
    (hinj : ∀ n m, n ∈ ns → m ∈ ns → nodePath ns n.id = nodePath ns m.id → n = m)
    (P : List String) (f : String) (parentId : Nat)
    (hlink : (P = [] ∧ parentId = 0) ∨
      (∃ a ∈ ns, a.id = parentId ∧ nodePath ns a.id = P))
    (m : CTNode) (hm : m ∈ ns) (hpath : nodePath ns m.id = P ++ [f]) :
    m.parent = parentId ∧ m.name = f := by
  obtain ⟨hbound, huniq, hplt, hclose, hkey⟩ := hwf
  have hdec : nodePath ns m.id = nodePath ns m.parent ++ [m.name] :=
    nodePath_node ns huniq hplt m hm (hbound m hm).1
  rw [hdec] at hpath
  have hsplit : nodePath ns m.parent = P ∧ ([m.name] : List String) = [f] :=
    List.append_inj' hpath rfl
  have hname : m.name = f := by simpa using hsplit.2
  refine ⟨?_, hname⟩
  rcases hlink with ⟨hP, hpid⟩ | ⟨a, ha, haid, hapath⟩
  · subst hP
    rcases hclose m hm with h0 | ⟨q, hq, hqid⟩
    · rw [h0, hpid]
    · exfalso
      apply hne q hq
      rw [hqid]
      exact hsplit.1
  · rcases hclose m hm with h0 | ⟨q, hq, hqid⟩
    · exfalso
      apply hne a ha
      rw [hapath, ← hsplit.1, h0, nodePath_zero]
    · have hqpath : nodePath ns q.id = P := by rw [hqid]; exact hsplit.1
      have hqa : q = a := hinj q a hq ha (by rw [hqpath, hapath])
      rw [← hqid, hqa, haid]

/-- When the key (parentId, f) is absent, no node realizes the path
P ++ [f]. -/
theorem no_node_at_path (ns : List CTNode) (hwf : TreeWF ns)
    (hne : ∀ n ∈ ns, nodePath ns n.id ≠ [])
    (hinj : ∀ n m, n ∈ ns → m ∈ ns → nodePath ns n.id = nodePath ns m.id → n = m)
    (P : List String) (f : String) (parentId : Nat)
    (hlink : (P = [] ∧ parentId = 0) ∨
      (∃ a ∈ ns, a.id = parentId ∧ nodePath ns a.id = P))
    (hfind : findNode ns parentId f = none)
    (m : CTNode) (hm : m ∈ ns) : nodePath ns m.id ≠ P ++ [f] := by
  intro hp
  exact findNode_none ns parentId f hfind m hm
    (node_at_path_key ns hwf hne hinj P f parentId hlink m hm hp)

/-- When the key (parentId, f) is absent, no processed record owns the
root-prefix P ++ [f] either (its prefix node would have that key). -/
theorem contributing_nil_of_no_node (rs : List TreeRecord) (ns : List CTNode)
    (hwf : TreeWF ns)
    (hne : ∀ n ∈ ns, nodePath ns n.id ≠ [])
    (hinj : ∀ n m, n ∈ ns → m ∈ ns → nodePath ns n.id = nodePath ns m.id → n = m)
    (P : List String) (f : String) (parentId : Nat)
    (hlink : (P = [] ∧ parentId = 0) ∨
      (∃ a ∈ ns, a.id = parentId ∧ nodePath ns a.id = P))
    (hfind : findNode ns parentId f = none)
    (hcomp : ∀ r ∈ rs, ∀ k, 1 ≤ k → k ≤ r.frames.length →
      ∃ n ∈ ns, nodePath ns n.id = r.frames.take k) :
    contributing rs (P ++ [f]) = [] := by
  rw [contributing, List.filter_eq_nil_iff]
  intro r hr hcontr
  have hlen := rootStart_length_le _ _ hcontr
  simp only [List.length_append, List.length_singleton] at hlen
  obtain ⟨m, hm, hmp⟩ := hcomp r hr (P.length + 1) (by omega) (by omega)
  have htake : r.frames.take (P.length + 1) = P ++ [f] := by
    have h2 := rootStart_take _ _ hcontr
    simpa using h2
  rw [htake] at hmp
  exact no_node_at_path ns hwf hne hinj P f parentId hlink hfind m hm hmp

theorem link_path (ns : List CTNode) (P : List String) (parentId : Nat)
    (hlink : (P = [] ∧ parentId = 0) ∨
      (∃ a ∈ ns, a.id = parentId ∧ nodePath ns a.id = P)) :
    nodePath ns parentId = P := by
  rcases hlink with ⟨hP, hpid⟩ | ⟨a, ha, haid, hapath⟩
  · rw [hpid, nodePath_zero, hP]
  · rw [← haid]
    exact hapath

theorem walkInv_step_found (rs : List TreeRecord) (rec : TreeRecord) (P : List String)
    (parentId : Nat) (ns : List CTNode) (f : String) (n : CTNode)
    (hinv : WalkInv rs rec P parentId ns)
    (hfind : findNode ns parentId f = some n) :
    WalkInv rs rec (P ++ [f]) n.id
      (ns.map (fun m => if m.id = n.id then
        { m with cost := m.cost + rec.cost, calls := m.calls + 1 } else m)) := by
  obtain ⟨⟨hbound, huniq, hplt, hclose, hkey⟩, hne, hinj, hsem, hlink, hpref, hcomp⟩ := hinv
  obtain ⟨hn, hnp, hnf⟩ := findNode_some ns parentId f n hfind
  set g : CTNode → CTNode := fun m => if m.id = n.id then
    { m with cost := m.cost + rec.cost, calls := m.calls + 1 } else m with hgdef
  have hg : ∀ m, (g m).id = m.id ∧ (g m).parent = m.parent ∧ (g m).name = m.name := by
    intro m
    by_cases h : m.id = n.id <;> simp [hgdef, h]
  have hpath_eq : ∀ id, nodePath (ns.map g) id = nodePath ns id :=
    nodePath_map_update ns g hg
  have hnP : nodePath ns n.id = P ++ [f] := by
    rw [nodePath_node ns huniq hplt n hn (hbound n hn).1, hnp, hnf,
      link_path ns P parentId hlink]
  have hgn : g n = { n with cost := n.cost + rec.cost, calls := n.calls + 1 } := by
    simp [hgdef]
  refine ⟨⟨?_, ?_, ?_, ?_, ?_⟩, ?_, ?_, ?_, ?_, ?_, ?_⟩
  · -- id bounds
    intro m' hm'
    obtain ⟨a, ha, rfl⟩ := List.mem_map.mp hm'
    rw [(hg a).1, List.length_map]
    exact hbound a ha
  · -- id uniqueness
    intro m1 m2 h1 h2 hid
    obtain ⟨a, ha, rfl⟩ := List.mem_map.mp h1
    obtain ⟨b, hb, rfl⟩ := List.mem_map.mp h2
    rw [(hg a).1, (hg b).1] at hid
    rw [huniq a b ha hb hid]
  · -- parent lt
    intro m' hm'
    obtain ⟨a, ha, rfl⟩ := List.mem_map.mp hm'
    rw [(hg a).1, (hg a).2.1]
    exact hplt a ha
  · -- parent closure
    intro m' hm'
    obtain ⟨a, ha, rfl⟩ := List.mem_map.mp hm'
    rw [(hg a).2.1]
    rcases hclose a ha with h0 | ⟨q, hq, hqid⟩
    · exact Or.inl h0
    · exact Or.inr ⟨g q, List.mem_map.mpr ⟨q, hq, rfl⟩, by rw [(hg q).1]; exact hqid⟩
  · -- key uniqueness
    intro m1 m2 h1 h2 hpar hname
    obtain ⟨a, ha, rfl⟩ := List.mem_map.mp h1
    obtain ⟨b, hb, rfl⟩ := List.mem_map.mp h2
    rw [(hg a).2.1, (hg b).2.1] at hpar
    rw [(hg a).2.2, (hg b).2.2] at hname
    rw [hkey a b ha hb hpar hname]
  · -- nonempty paths
    intro m' hm'
    obtain ⟨a, ha, rfl⟩ := List.mem_map.mp hm'
    rw [(hg a).1, hpath_eq]
    exact hne a ha
  · -- path injectivity
    intro m1 m2 h1 h2 hpp
    obtain ⟨a, ha, rfl⟩ := List.mem_map.mp h1
    obtain ⟨b, hb, rfl⟩ := List.mem_map.mp h2
    rw [(hg a).1, (hg b).1, hpath_eq, hpath_eq] at hpp
    rw [hinj a b ha hb hpp]
  · -- walk semantics at P ++ [f]
    intro m' hm'
    obtain ⟨a, ha, rfl⟩ := List.mem_map.mp hm'
    rw [(hg a).1, hpath_eq]
    by_cases hid : a.id = n.id
    · have haeq : a = n := huniq a n ha hn hid
      subst haeq
      rw [hgn]
      obtain ⟨hc1, hc2⟩ := hsem a ha
      have hindold : ¬ (rootStart (nodePath ns a.id) P = true ∧ nodePath ns a.id ≠ []) := by
        rw [hnP]
        intro hcon
        rw [rootStart_snoc_self] at hcon
        cases hcon.1
      have hindnew : rootStart (nodePath ns a.id) (P ++ [f]) = true ∧
          nodePath ns a.id ≠ [] := by
        rw [hnP]
        exact ⟨rootStart_refl _, by simp⟩
      rw [if_neg hindold] at hc1 hc2
      constructor
      · show a.calls + 1 = _
        rw [if_pos hindnew, hc1]
      · show a.cost + rec.cost = _
        rw [if_pos hindnew, hc2]
        omega
    · have hga : g a = a := by simp [hgdef, hid]
      rw [hga]
      obtain ⟨hc1, hc2⟩ := hsem a ha
      have hind : (rootStart (nodePath ns a.id) (P ++ [f]) = true ∧ nodePath ns a.id ≠ [])
          ↔ (rootStart (nodePath ns a.id) P = true ∧ nodePath ns a.id ≠ []) := by
        constructor
        · intro ⟨hrs, hnem⟩
          rcases (rootStart_snoc _ _ _).mp hrs with h | h
          · exact ⟨h, hnem⟩
          · exfalso
            apply hid
            have : a = n := hinj a n ha hn (by rw [h, hnP])
            rw [this]
        · intro ⟨hrs, hnem⟩
          exact ⟨(rootStart_snoc _ _ _).mpr (Or.inl hrs), hnem⟩
      constructor
      · rw [hc1]
        congr 1
        by_cases hcond : rootStart (nodePath ns a.id) P = true ∧ nodePath ns a.id ≠ []
        · rw [if_pos hcond, if_pos (hind.mpr hcond)]
        · rw [if_neg hcond, if_neg (fun hc => hcond (hind.mp hc))]
      · rw [hc2]
        congr 1
        by_cases hcond : rootStart (nodePath ns a.id) P = true ∧ nodePath ns a.id ≠ []
        · rw [if_pos hcond, if_pos (hind.mpr hcond)]
        · rw [if_neg hcond, if_neg (fun hc => hcond (hind.mp hc))]
  · -- cursor link
    refine Or.inr ⟨g n, List.mem_map.mpr ⟨n, hn, rfl⟩, by rw [(hg n).1], ?_⟩
    rw [(hg n).1, hpath_eq, hnP]
  · -- prefixes of P ++ [f]
    intro k h1 h2
    simp only [List.length_append, List.length_singleton] at h2
    by_cases hk : k ≤ P.length
    · obtain ⟨m, hm, hmp⟩ := hpref k h1 hk
      refine ⟨g m, List.mem_map.mpr ⟨m, hm, rfl⟩, ?_⟩
      rw [(hg m).1, hpath_eq, hmp, List.take_append_of_le_length hk]
    · have hk2 : k = P.length + 1 := by omega
      refine ⟨g n, List.mem_map.mpr ⟨n, hn, rfl⟩, ?_⟩
      rw [(hg n).1, hpath_eq, hnP, List.take_of_length_le (by simp; omega)]
  · -- completeness over processed records
    intro r hr k h1 h2
    obtain ⟨m, hm, hmp⟩ := hcomp r hr k h1 h2
    refine ⟨g m, List.mem_map.mpr ⟨m, hm, rfl⟩, ?_⟩
    rw [(hg m).1, hpath_eq, hmp]

theorem walkInv_step_new (rs : List TreeRecord) (rec : TreeRecord) (P : List String)
    (parentId : Nat) (ns : List CTNode) (f : String)
    (hinv : WalkInv rs rec P parentId ns)
    (hfind : findNode ns parentId f = none) :
    WalkInv rs rec (P ++ [f]) (ns.length + 1)
      (ns ++ [⟨ns.length + 1, parentId, f, rec.cost, 1⟩]) := by
  obtain ⟨hwf, hne, hinj, hsem, hlink, hpref, hcomp⟩ := hinv
  obtain ⟨hbound, huniq, hplt, hclose, hkey⟩ := hwf
  have hwf2 : TreeWF ns := ⟨hbound, huniq, hplt, hclose, hkey⟩
  set n0 : CTNode := ⟨ns.length + 1, parentId, f, rec.cost, 1⟩ with hn0
  have hn0id : n0.id = ns.length + 1 := rfl
  have hn0par : n0.parent = parentId := rfl
  have hn0name : n0.name = f := rfl
  have hparle : parentId ≤ ns.length := by
    rcases hlink with ⟨_, hpid⟩ | ⟨a, ha, haid, _⟩
    · omega
    · have := (hbound a ha).2
      omega
  have hbound2 : ∀ m ∈ ns, m.id ≤ ns.length := fun m hm => (hbound m hm).2
  have hstab : ∀ id, id ≤ ns.length → nodePath (ns ++ [n0]) id = nodePath ns id :=
    fun id hid => nodePath_extend ns n0 hbound2 (by omega) hplt id hid
  have hnewpath : nodePath (ns ++ [n0]) n0.id = P ++ [f] := by
    rw [nodePath_new ns n0 hbound2 hn0id hplt (by rw [hn0par]; exact hparle),
      hn0par, hn0name, link_path ns P parentId hlink]
  have hnonode : ∀ m ∈ ns, nodePath ns m.id ≠ P ++ [f] :=
    fun m hm => no_node_at_path ns hwf2 hne hinj P f parentId hlink hfind m hm
  have hcontr : contributing rs (P ++ [f]) = [] :=
    contributing_nil_of_no_node rs ns hwf2 hne hinj P f parentId hlink hfind hcomp
  refine ⟨⟨?_, ?_, ?_, ?_, ?_⟩, ?_, ?_, ?_, ?_, ?_, ?_⟩
  · -- id bounds
    intro m' hm'
    simp only [List.length_append, List.length_singleton]
    rcases List.mem_append.mp hm' with hm | hm
    · have := hbound m' hm
      omega
    · rw [List.mem_singleton.mp hm, hn0id]
      omega
  · -- id uniqueness
    intro m1 m2 h1 h2 hid
    rcases List.mem_append.mp h1 with hm1 | hm1 <;>
      rcases List.mem_append.mp h2 with hm2 | hm2
    · exact huniq m1 m2 hm1 hm2 hid
    · rw [List.mem_singleton.mp hm2, hn0id] at hid
      have := hbound2 m1 hm1
      omega
    · rw [List.mem_singleton.mp hm1, hn0id] at hid
      have := hbound2 m2 hm2
      omega
    · rw [List.mem_singleton.mp hm1, List.mem_singleton.mp hm2]
  · -- parent lt
    intro m' hm'
    rcases List.mem_append.mp hm' with hm | hm
    · exact hplt m' hm
    · rw [List.mem_singleton.mp hm, hn0id, hn0par]
      omega
  · -- parent closure
    intro m' hm'
    rcases List.mem_append.mp hm' with hm | hm
    · rcases hclose m' hm with h0 | ⟨q, hq, hqid⟩
      · exact Or.inl h0
      · exact Or.inr ⟨q, List.mem_append_left _ hq, hqid⟩
    · rw [List.mem_singleton.mp hm, hn0par]
      rcases hlink with ⟨_, hpid⟩ | ⟨a, ha, haid, _⟩
      · exact Or.inl hpid
      · exact Or.inr ⟨a, List.mem_append_left _ ha, haid⟩
  · -- key uniqueness
    intro m1 m2 h1 h2 hpar hname
    rcases List.mem_append.mp h1 with hm1 | hm1 <;>
      rcases List.mem_append.mp h2 with hm2 | hm2
    · exact hkey m1 m2 hm1 hm2 hpar hname
    · exfalso
      rw [List.mem_singleton.mp hm2, hn0par] at hpar
      rw [List.mem_singleton.mp hm2, hn0name] at hname
      exact findNode_none ns parentId f hfind m1 hm1 ⟨hpar, hname⟩
    · exfalso
      rw [List.mem_singleton.mp hm1, hn0par] at hpar
      rw [List.mem_singleton.mp hm1, hn0name] at hname
      exact findNode_none ns parentId f hfind m2 hm2 ⟨hpar.symm, hname.symm⟩
    · rw [List.mem_singleton.mp hm1, List.mem_singleton.mp hm2]
  · -- nonempty paths
    intro m' hm'
    rcases List.mem_append.mp hm' with hm | hm
    · rw [hstab m'.id (hbound2 m' hm)]
      exact hne m' hm
    · rw [List.mem_singleton.mp hm, hnewpath]
      simp
  · -- path injectivity
    intro m1 m2 h1 h2 hpp
    rcases List.mem_append.mp h1 with hm1 | hm1 <;>
      rcases List.mem_append.mp h2 with hm2 | hm2
    · rw [hstab m1.id (hbound2 m1 hm1), hstab m2.id (hbound2 m2 hm2)] at hpp
      exact hinj m1 m2 hm1 hm2 hpp
    · exfalso
      rw [List.mem_singleton.mp hm2] at hpp
      rw [hstab m1.id (hbound2 m1 hm1), hnewpath] at hpp
      exact hnonode m1 hm1 hpp
    · exfalso
      rw [List.mem_singleton.mp hm1] at hpp
      rw [hstab m2.id (hbound2 m2 hm2), hnewpath] at hpp
      exact hnonode m2 hm2 hpp.symm
    · rw [List.mem_singleton.mp hm1, List.mem_singleton.mp hm2]
  · -- walk semantics at P ++ [f]
    intro m' hm'
    rcases List.mem_append.mp hm' with hm | hm
    · rw [hstab m'.id (hbound2 m' hm)]
      obtain ⟨hc1, hc2⟩ := hsem m' hm
      have hind : (rootStart (nodePath ns m'.id) (P ++ [f]) = true ∧ nodePath ns m'.id ≠ [])
          ↔ (rootStart (nodePath ns m'.id) P = true ∧ nodePath ns m'.id ≠ []) := by
        constructor
        · intro ⟨hrs, hnem⟩
          rcases (rootStart_snoc _ _ _).mp hrs with h | h
          · exact ⟨h, hnem⟩
          · exact absurd h (hnonode m' hm)
        · intro ⟨hrs, hnem⟩
          exact ⟨(rootStart_snoc _ _ _).mpr (Or.inl hrs), hnem⟩
      constructor
      · rw [hc1]
        congr 1
        by_cases hcond : rootStart (nodePath ns m'.id) P = true ∧ nodePath ns m'.id ≠ []
        · rw [if_pos hcond, if_pos (hind.mpr hcond)]
        · rw [if_neg hcond, if_neg (fun hc => hcond (hind.mp hc))]
      · rw [hc2]
        congr 1
        by_cases hcond : rootStart (nodePath ns m'.id) P = true ∧ nodePath ns m'.id ≠ []
        · rw [if_pos hcond, if_pos (hind.mpr hcond)]
        · rw [if_neg hcond, if_neg (fun hc => hcond (hind.mp hc))]
    · rw [List.mem_singleton.mp hm, hnewpath]
      have hzero1 : specCalls rs (P ++ [f]) = 0 := by
        rw [specCalls, hcontr]
        rfl
      have hzero2 : specCost rs (P ++ [f]) = 0 := by
        rw [specCost, hcontr]
        rfl
      have hcond : rootStart (P ++ [f]) (P ++ [f]) = true ∧ (P ++ [f]) ≠ ([] : List String) :=
        ⟨rootStart_refl _, by simp⟩
      constructor
      · rw [hzero1, if_pos hcond]
      · rw [hzero2, if_pos hcond]
        show rec.cost = 0 + rec.cost
        omega
  · -- cursor link
    exact Or.inr ⟨n0, List.mem_append_right _ (List.mem_singleton_self n0),
      hn0id, hnewpath⟩
  · -- prefixes of P ++ [f]
    intro k h1 h2
    simp only [List.length_append, List.length_singleton] at h2
    by_cases hk : k ≤ P.length
    · obtain ⟨m, hm, hmp⟩ := hpref k h1 hk
      refine ⟨m, List.mem_append_left _ hm, ?_⟩
      rw [hstab m.id (hbound2 m hm), hmp, List.take_append_of_le_length hk]
    · have hk2 : k = P.length + 1 := by omega
      refine ⟨n0, List.mem_append_right _ (List.mem_singleton_self n0), ?_⟩
      rw [hnewpath, List.take_of_length_le (by simp; omega)]
  · -- completeness over processed records
    intro r hr k h1 h2
    obtain ⟨m, hm, hmp⟩ := hcomp r hr k h1 h2
    refine ⟨m, List.mem_append_left _ hm, ?_⟩
    rw [hstab m.id (hbound2 m hm), hmp]

theorem walkInv_step (rs : List TreeRecord) (rec : TreeRecord) (P : List String)
    (parentId : Nat) (ns : List CTNode) (f : String)
    (hinv : WalkInv rs rec P parentId ns) :
    WalkInv rs rec (P ++ [f]) (addFrame ns parentId f rec.cost).2
      (addFrame ns parentId f rec.cost).1 := by
  cases hfind : findNode ns parentId f with
  | some n =>
    rw [addFrame_found ns parentId f rec.cost n hfind]
    exact walkInv_step_found rs rec P parentId ns f n hinv hfind
  | none =>
    rw [addFrame_new ns parentId f rec.cost hfind]
    exact walkInv_step_new rs rec P parentId ns f hinv hfind

theorem addFrames_inv (rs : List TreeRecord) (rec : TreeRecord) :
    ∀ (fs P : List String) (parentId : Nat) (ns : List CTNode),
      rec.frames = P ++ fs →
      WalkInv rs rec P parentId ns →
      ∃ pid, WalkInv rs rec rec.frames pid (addFrames ns parentId fs rec.cost) := by
  intro fs
  induction fs with
  | nil =>
    intro P parentId ns hP hinv
    rw [addFrames]
    refine ⟨parentId, ?_⟩
    rw [hP, List.append_nil]
    exact hinv
  | cons f fs ih =>
    intro P parentId ns hP hinv
    rw [addFrames]
    exact ih (P ++ [f]) (addFrame ns parentId f rec.cost).2
      (addFrame ns parentId f rec.cost).1 (by rw [hP]; simp)
      (walkInv_step rs rec P parentId ns f hinv)

theorem walkInv_init (rs : List TreeRecord) (rec : TreeRecord) (ns : List CTNode)
    (hwf : TreeWF ns)
    (hne : ∀ n ∈ ns, nodePath ns n.id ≠ [])
    (hinj : ∀ n m, n ∈ ns → m ∈ ns → nodePath ns n.id = nodePath ns m.id → n = m)
    (hsem0 : ∀ n ∈ ns, n.calls = specCalls rs (nodePath ns n.id) ∧
      n.cost = specCost rs (nodePath ns n.id))
    (hcomp : ∀ r ∈ rs, ∀ k, 1 ≤ k → k ≤ r.frames.length →
      ∃ n ∈ ns, nodePath ns n.id = r.frames.take k) :
    WalkInv rs rec [] 0 ns := by
  refine ⟨hwf, hne, hinj, ?_, Or.inl ⟨rfl, rfl⟩, ?_, hcomp⟩
  · intro n hn
    have hind : ¬(rootStart (nodePath ns n.id) [] = true ∧ nodePath ns n.id ≠ []) := by
      intro hc
      exact hc.2 ((rootStart_nil_right _).mp hc.1)
    constructor
    · rw [if_neg hind]
      exact (hsem0 n hn).1
    · rw [if_neg hind]
      exact (hsem0 n hn).2
  · intro k h1 h2
    simp only [List.length_nil] at h2
    omega

theorem buildTree_inv (rs : List TreeRecord) :
    TreeWF (buildTree rs) ∧
    (∀ n ∈ buildTree rs, nodePath (buildTree rs) n.id ≠ []) ∧
    (∀ n m, n ∈ buildTree rs → m ∈ buildTree rs →
      nodePath (buildTree rs) n.id = nodePath (buildTree rs) m.id → n = m) ∧
    (∀ n ∈ buildTree rs, n.calls = specCalls rs (nodePath (buildTree rs) n.id) ∧
      n.cost = specCost rs (nodePath (buildTree rs) n.id)) ∧
    (∀ r ∈ rs, ∀ k, 1 ≤ k → k ≤ r.frames.length →
      ∃ n ∈ buildTree rs, nodePath (buildTree rs) n.id = r.frames.take k) := by
  induction rs using List.reverseRecOn with
  | nil =>
    refine ⟨⟨?_, ?_, ?_, ?_, ?_⟩, ?_, ?_, ?_, ?_⟩ <;> simp [buildTree]
  | append_singleton rs r ih =>
    obtain ⟨hwf, hne, hinj, hsem, hcomp⟩ := ih
    have hfold : buildTree (rs ++ [r]) = addFrames (buildTree rs) 0 r.frames r.cost := by
      simp only [buildTree, List.foldl_append]
      rfl
    have hinit : WalkInv rs r [] 0 (buildTree rs) :=
      walkInv_init rs r (buildTree rs) hwf hne hinj hsem hcomp
    obtain ⟨pid, hfin⟩ :=
      addFrames_inv rs r r.frames [] 0 (buildTree rs) (by simp) hinit
    obtain ⟨hwf', hne', hinj', hsem', hlink', hpref', hcomp'⟩ := hfin
    rw [hfold]
    refine ⟨hwf', hne', hinj', ?_, ?_⟩
    · intro n hn
      obtain ⟨hc1, hc2⟩ := hsem' n hn
      have hnem := hne' n hn
      constructor
      · rw [hc1, specCalls_snoc]
        congr 1
        by_cases hr : rootStart (nodePath (addFrames (buildTree rs) 0 r.frames r.cost) n.id)
            r.frames = true
        · rw [if_pos ⟨hr, hnem⟩, if_pos hr]
        · rw [if_neg (fun hc => hr hc.1), if_neg hr]
      · rw [hc2, specCost_snoc]
        congr 1
        by_cases hr : rootStart (nodePath (addFrames (buildTree rs) 0 r.frames r.cost) n.id)
            r.frames = true
        · rw [if_pos ⟨hr, hnem⟩, if_pos hr]
        · rw [if_neg (fun hc => hr hc.1), if_neg hr]
    · intro r' hr' k h1 h2
      rcases List.mem_append.mp hr' with h | h
      · exact hcomp' r' h k h1 h2
      · rw [List.mem_singleton.mp h] at h2 ⊢
        exact hpref' k h1 h2

/-- Call-tree aggregation, in full generality: in the tree built from
any record list, every node's call count is the number of records whose
frames extend the node's root path and its cost is the sum of those
records' costs; nodes with equal paths coincide (records sharing a
root-prefix share one node chain); and every nonempty root-prefix of
every record is realized by a node. -/
theorem buildTree_aggregation (rs : List TreeRecord) :
    (∀ n ∈ buildTree rs,
      n.calls = (contributing rs (nodePath (buildTree rs) n.id)).length ∧
      n.cost = ((contributing rs (nodePath (buildTree rs) n.id)).map TreeRecord.cost).sum) ∧
    (∀ n m, n ∈ buildTree rs → m ∈ buildTree rs →
      nodePath (buildTree rs) n.id = nodePath (buildTree rs) m.id → n = m) ∧
    (∀ r ∈ rs, ∀ k, 1 ≤ k → k ≤ r.frames.length →
      ∃ n ∈ buildTree rs, nodePath (buildTree rs) n.id = r.frames.take k) := by
  obtain ⟨hwf, hne, hinj, hsem, hcomp⟩ := buildTree_inv rs
  exact ⟨fun n hn => hsem n hn, hinj, hcomp⟩

/-! ## Claim theorems -/

/-- C1: for every indexed call-stack store reachable by time-ordered
appends with any checkpoint index interval N ≥ 1, and every pair
(start_step, end_step) with start_step ≤ end_step, read_range yields
exactly the appended records whose step lies in [start_step, end_step],
in original append order.  The modelled read_range searches the index
for the greatest entry with step ≤ start_step (offset 0 if none),
sequentially deserializes from that offset, skips records with
step < start_step, and stops without error at end-of-stream or at the
first record with step > end_step. -/
theorem c1_read_range_window (N : Nat) (rs : List StackRecord) (s e : Nat)
    (hN : 1 ≤ N) (hmono : StepsMono rs) (hse : s ≤ e) :
    (buildStore N rs).read_range s e = .ok (inWindow s e rs) :=
  read_range_build N hN rs hmono s e

theorem c1_read_range_window_witness :
    1 ≤ 2 ∧ StepsMono [⟨1, [10]⟩, ⟨3, [10, 11]⟩, ⟨3, [12]⟩, ⟨7, [13]⟩] ∧ 3 ≤ 6 ∧
    (buildStore 2 [⟨1, [10]⟩, ⟨3, [10, 11]⟩, ⟨3, [12]⟩, ⟨7, [13]⟩]).read_range 3 6 =
      .ok (inWindow 3 6 [⟨1, [10]⟩, ⟨3, [10, 11]⟩, ⟨3, [12]⟩, ⟨7, [13]⟩]) :=
  ⟨by omega, by unfold StepsMono; decide, by omega,
    c1_read_range_window 2 [⟨1, [10]⟩, ⟨3, [10, 11]⟩, ⟨3, [12]⟩, ⟨7, [13]⟩] 3 6
      (by omega) (by unfold StepsMono; decide) (by omega)⟩

/-- C2: round-trip of the time-series store — for every sequence of
appended samples whose timestamps lie in the queried window, querying
with one sample per bucket returns exactly the appended values (each
clipped by 16-bit saturation at append time), the returned count equals
the number of appends, and cpu_time_ms is the sum of all raw samples in
range.  The witness instantiates the documented example for thread 132:
micro-values [10, 2, 0, 0, 2, 4] at 1000 ms buckets, yielding ts_data
[10,2,0,0,2,4] and cpu_time_ms = 18. -/
theorem c2_query_roundtrip (inputs : List (Nat × Nat)) (s e : Nat)
    (hin : ∀ x ∈ inputs, s ≤ x.1 ∧ x.1 ≤ e) :
    (buildTS inputs).query s e 1 =
      (inputs.map (fun x => clip16 x.2), (inputs.map (fun x => clip16 x.2)).sum) ∧
    ((buildTS inputs).query s e 1).1.length = inputs.length := by
  refine ⟨query_full inputs s e hin, ?_⟩
  rw [query_full inputs s e hin]
  simp

theorem c2_query_roundtrip_witness :
    (∀ x ∈ ([(0, 10), (1000, 2), (2000, 0), (3000, 0), (4000, 2), (5000, 4)] :
        List (Nat × Nat)), 0 ≤ x.1 ∧ x.1 ≤ 5000) ∧
    (buildTS [(0, 10), (1000, 2), (2000, 0), (3000, 0), (4000, 2), (5000, 4)]).query
        0 5000 1 = ([10, 2, 0, 0, 2, 4], 18) :=
  ⟨by decide, by
    rw [(c2_query_roundtrip [(0, 10), (1000, 2), (2000, 0), (3000, 0), (4000, 2), (5000, 4)]
      0 5000 (by decide)).1]
    decide⟩

/-- C3: on the two documented records — [Thread.run, MyTask.do_job] with
cost 20 and [Thread.run] with cost 40 — the call-tree builder produces
the shared chain Thread.run cost=60/calls=2 with child MyTask.do_job
cost=20/calls=1, the call count of each chain node being the number of
contributing records and its cost the sum of their contributions; the
design document's literal tree_data sample instead lists calls=1 on the
parent and calls=2 on the child, so the built tree does not match it (a
child's call count can never exceed its parent's under the documented
aggregation). -/
theorem c3_call_tree_example :
    buildTree exampleRecords =
      [⟨1, 0, "Thread.run()", 60, 2⟩, ⟨2, 1, "MyTask.do_job()", 20, 1⟩] ∧
    (contributing exampleRecords ["Thread.run()"]).length = 2 ∧
    ((contributing exampleRecords ["Thread.run()"]).map TreeRecord.cost).sum = 60 ∧
    (contributing exampleRecords ["Thread.run()", "MyTask.do_job()"]).length = 1 ∧
    ((contributing exampleRecords ["Thread.run()", "MyTask.do_job()"]).map
      TreeRecord.cost).sum = 20 ∧
    docTreeData.map CTNode.calls = [1, 2] ∧
    buildTree exampleRecords ≠ docTreeData :=
  ⟨rfl, rfl, rfl, rfl, rfl, rfl, by decide⟩

/-- C4: torn-write resilience — truncating the trailing record of the
data file by 1..N bytes never makes read_range fail: the read succeeds
for every window, silently dropping the torn record, and for windows
not containing the torn record's step it returns exactly the same
result as on the untruncated file. -/
theorem c4_torn_write (N k : Nat) (rs : List StackRecord) (r : StackRecord) (s e : Nat)
    (hN : 1 ≤ N) (hmono : StepsMono (rs ++ [r])) (hk1 : 1 ≤ k)
    (hk2 : k ≤ (serializeRecord r).length) (hse : s ≤ e) :
    ((buildStore N (rs ++ [r])).truncData k).read_range s e = .ok (inWindow s e rs) ∧
    ((r.step < s ∨ e < r.step) →
      ((buildStore N (rs ++ [r])).truncData k).read_range s e =
        (buildStore N (rs ++ [r])).read_range s e) := by
  refine ⟨read_range_trunc N k hN rs r hmono hk1 hk2 s e, ?_⟩
  intro hout
  rw [read_range_trunc N k hN rs r hmono hk1 hk2 s e,
    read_range_build N hN (rs ++ [r]) hmono s e]
  have hsame : inWindow s e (rs ++ [r]) = inWindow s e rs := by
    rw [inWindow_append]
    have h1 : inWindow s e [r] = [] := by
      rw [inWindow, List.filter_eq_nil_iff]
      intro q hq
      simp only [List.mem_singleton] at hq
      subst hq
      simp
      omega
    rw [h1, List.append_nil]
  rw [hsame]

theorem c4_torn_write_witness :
    1 ≤ 1 ∧ StepsMono [⟨1, [10]⟩, ⟨3, [11]⟩, ⟨5, [12, 13]⟩] ∧ 1 ≤ 2 ∧
    2 ≤ (serializeRecord ⟨5, [12, 13]⟩).length ∧ 1 ≤ 3 ∧
    (((buildStore 1 ([⟨1, [10]⟩, ⟨3, [11]⟩] ++ [⟨5, [12, 13]⟩])).truncData 2).read_range 1 3 =
      .ok (inWindow 1 3 [⟨1, [10]⟩, ⟨3, [11]⟩]) ∧
    (((5 : Nat) < 1 ∨ (3 : Nat) < 5) →
      ((buildStore 1 ([⟨1, [10]⟩, ⟨3, [11]⟩] ++ [⟨5, [12, 13]⟩])).truncData 2).read_range 1 3 =
        (buildStore 1 ([⟨1, [10]⟩, ⟨3, [11]⟩] ++ [⟨5, [12, 13]⟩])).read_range 1 3)) :=
  ⟨by omega, by unfold StepsMono; decide, by omega, by decide, by omega,
    c4_torn_write 1 2 [⟨1, [10]⟩, ⟨3, [11]⟩] ⟨5, [12, 13]⟩ 1 3
      (by omega) (by unfold StepsMono; decide) (by omega) (by decide) (by omega)⟩

/-- C5: rotation boundary — appending a sample whose timestamp is more
than one hour past the current segment's begin_time finalizes that
segment (its end_time is written and its sample list, hence its record
count, is frozen as it was before the append) and opens a new current
segment with begin_time equal to the new timestamp, holding exactly the
new sample; no data of the new append reaches the old segment. -/
theorem c5_rotation (st : TSStore) (seg : TSSegment) (t m : Nat)
    (hc : st.current = some seg) (hrot : hourMs < t - seg.begin_time) :
    (st.append t m).closed = st.closed ++ [seg.finalize] ∧
    seg.finalize.samples = seg.samples ∧
    seg.finalize.begin_time = seg.begin_time ∧
    seg.finalize.end_time.isSome = true ∧
    (st.append t m).current = some ⟨t, none, [⟨t, clip16 m⟩]⟩ := by
  have h := ts_append_rotates st seg t m hc hrot
  exact ⟨by rw [h], (finalize_fields seg).1, (finalize_fields seg).2.1,
    (finalize_fields seg).2.2, by rw [h]⟩

theorem c5_rotation_witness :
    (TSStore.mk [] (some ⟨0, none, [⟨0, 5⟩]⟩)).current = some ⟨0, none, [⟨0, 5⟩]⟩ ∧
    hourMs < 4000000 - (TSSegment.mk 0 none [⟨0, 5⟩]).begin_time ∧
    (((TSStore.mk [] (some ⟨0, none, [⟨0, 5⟩]⟩)).append 4000000 7).closed =
        [] ++ [(TSSegment.mk 0 none [⟨0, 5⟩]).finalize] ∧
      (TSSegment.mk 0 none [⟨0, 5⟩]).finalize.samples = [⟨0, 5⟩] ∧
      (TSSegment.mk 0 none [⟨0, 5⟩]).finalize.begin_time = 0 ∧
      (TSSegment.mk 0 none [⟨0, 5⟩]).finalize.end_time.isSome = true ∧
      ((TSStore.mk [] (some ⟨0, none, [⟨0, 5⟩]⟩)).append 4000000 7).current =
        some ⟨4000000, none, [⟨4000000, clip16 7⟩]⟩) :=
  ⟨rfl, by decide,
    c5_rotation (TSStore.mk [] (some ⟨0, none, [⟨0, 5⟩]⟩)) ⟨0, none, [⟨0, 5⟩]⟩
      4000000 7 rfl (by decide)⟩

/-- C6: index monotonicity — for every indexed store state reachable by
a sequence of time-ordered appends with index interval N ≥ 1 (the
method-dictionary store has the same shape with the monotonically
assigned method id in place of the step), successive checkpoint index
entries are strictly increasing in both the step field and the
byte-offset field. -/
theorem c6_index_monotone (N : Nat) (rs : List StackRecord)
    (hN : 1 ≤ N) (hmono : StepsMono rs) :
    List.Chain' (fun p q : Nat × Nat => p.1 < q.1 ∧ p.2 < q.2) (buildStore N rs).index :=
  ((storeInv_build N hN rs hmono).2.2.1).chain'

theorem c6_index_monotone_witness :
    1 ≤ 1 ∧ StepsMono [⟨0, [1]⟩, ⟨2, [2, 3]⟩, ⟨5, [4]⟩] ∧
    List.Chain' (fun p q : Nat × Nat => p.1 < q.1 ∧ p.2 < q.2)
      (buildStore 1 [⟨0, [1]⟩, ⟨2, [2, 3]⟩, ⟨5, [4]⟩]).index :=
  ⟨by omega, by unfold StepsMono; decide,
    c6_index_monotone 1 [⟨0, [1]⟩, ⟨2, [2, 3]⟩, ⟨5, [4]⟩] (by omega)
      (by unfold StepsMono; decide)⟩

/-- C7: a time-ranged query request with start_time > end_time is
rejected by the dispatcher with a protocol error response
(result "error") before any store access: the handler performs no store
read or write and the store state is returned unchanged. -/
theorem c7_reject_out_of_range (st : TSStore) (req : TimeRangedReq) (bucket : Nat)
    (h : req.end_time < req.start_time) :
    (dispatch_cpu_time st req bucket).1.result = "error" ∧
    (dispatch_cpu_time st req bucket).2.1 = st ∧
    (dispatch_cpu_time st req bucket).2.2 = [] := by
  rw [dispatch_cpu_time, if_pos h]
  exact ⟨rfl, rfl, rfl⟩

theorem c7_reject_out_of_range_witness :
    (TimeRangedReq.mk 10 5).end_time < (TimeRangedReq.mk 10 5).start_time ∧
    ((dispatch_cpu_time (TSStore.mk [] (some ⟨0, none, [⟨0, 3⟩]⟩))
        (TimeRangedReq.mk 10 5) 1).1.result = "error" ∧
      (dispatch_cpu_time (TSStore.mk [] (some ⟨0, none, [⟨0, 3⟩]⟩))
        (TimeRangedReq.mk 10 5) 1).2.1 = TSStore.mk [] (some ⟨0, none, [⟨0, 3⟩]⟩) ∧
      (dispatch_cpu_time (TSStore.mk [] (some ⟨0, none, [⟨0, 3⟩]⟩))
        (TimeRangedReq.mk 10 5) 1).2.2 = []) :=
  ⟨by decide,
    c7_reject_out_of_range (TSStore.mk [] (some ⟨0, none, [⟨0, 3⟩]⟩))
      (TimeRangedReq.mk 10 5) 1 (by decide)⟩

/-- C8: every append to the time-series store stores the 16-bit sample
min(micros, 65535) — saturation at the representable maximum — and
appends exactly 2 bytes of sample data; the two stored bytes decode back
to the saturated value. -/
theorem c8_append_clip_two_bytes (st : TSStore) (t m : Nat) :
    (st.append t m).allSamples = st.allSamples ++ [⟨t, min m 65535⟩] ∧
    (st.append t m).dataBytes = st.dataBytes ++ encode16 (min m 65535) ∧
    (st.append t m).dataBytes.length = st.dataBytes.length + 2 ∧
    decode16 (encode16 (min m 65535)) = min m 65535 := by
  refine ⟨allSamples_append st t m, dataBytes_append st t m, ?_, decode16_encode16 _⟩
  rw [dataBytes_append st t m]
  simp [encode16_length]

/-- C9: when the last window is closed, the application quits if and
only if process.platform is not darwin; on darwin the app keeps running
with its window state untouched (main.js lines 71–75). -/
theorem c9_window_all_closed (pf : String) (st : AppState) (h : st.quitted = false) :
    ((onEvent pf st .windowAllClosed).quitted = true ↔ pf ≠ "darwin") ∧
    (onEvent pf st .windowAllClosed).mainWindow = st.mainWindow ∧
    (onEvent pf st .windowAllClosed).openWindows = st.openWindows := by
  simp only [onEvent]
  by_cases hp : pf = "darwin"
  · subst hp
    rw [if_neg (by simp)]
    refine ⟨?_, rfl, rfl⟩
    rw [h]
    simp
  · rw [if_pos hp]
    refine ⟨?_, rfl, rfl⟩
    simp [hp]

theorem c9_window_all_closed_witness :
    AppState.init.quitted = false ∧
    (((onEvent "linux" AppState.init .windowAllClosed).quitted = true ↔ "linux" ≠ "darwin") ∧
      (onEvent "linux" AppState.init .windowAllClosed).mainWindow = AppState.init.mainWindow ∧
      (onEvent "linux" AppState.init .windowAllClosed).openWindows =
        AppState.init.openWindows) :=
  ⟨rfl, c9_window_all_closed "linux" AppState.init rfl⟩

/-- C10: at most one main window exists at any time — from any
well-formed state, any event sequence not containing 'ready' (Electron
emits 'ready' once, before the lifecycle events modelled here) keeps the
open-window count at most 1; a second application instance never creates
a window and instead restores (unminimizes) and focuses the existing
main window; and 'activate' creates a window exactly when mainWindow is
null (main.js lines 77–81, 91–102). -/
theorem c10_single_window (pf : String) (evs : List AppEvent) (st : AppState)
    (hev : AppEvent.ready ∉ evs) (h : WFWin st) :
    (runEvents pf st evs).openWindows ≤ 1 ∧
    (∀ s : AppState, (onEvent pf s .secondInstance).openWindows = s.openWindows) ∧
    (∀ (s : AppState) (w : BrowserWindow), s.mainWindow = some w →
      (onEvent pf s .secondInstance).mainWindow =
        some { w with minimized := false, focused := true }) ∧
    (∀ s : AppState, s.mainWindow ≠ none → onEvent pf s .activate = s) ∧
    (∀ s : AppState, s.mainWindow = none → onEvent pf s .activate = createWindow s) := by
  refine ⟨wfwin_le_one _ (wfwin_run pf evs st hev h), ?_, ?_, ?_, ?_⟩
  · intro s
    simp only [onEvent]
    cases hw : s.mainWindow <;> simp
  · intro s w hw
    simp only [onEvent]
    rw [hw]
  · intro s hw
    simp only [onEvent]
    rw [if_neg hw]
  · intro s hw
    simp only [onEvent]
    rw [if_pos hw]

theorem c10_single_window_witness :
    AppEvent.ready ∉ [AppEvent.activate, AppEvent.secondInstance, AppEvent.windowClosed,
      AppEvent.activate] ∧
    WFWin (createWindow AppState.init) ∧
    (runEvents "linux" (createWindow AppState.init)
      [AppEvent.activate, AppEvent.secondInstance, AppEvent.windowClosed,
        AppEvent.activate]).openWindows ≤ 1 :=
  ⟨by decide, by unfold WFWin; decide,
    (c10_single_window "linux"
      [AppEvent.activate, AppEvent.secondInstance, AppEvent.windowClosed, AppEvent.activate]
      (createWindow AppState.init) (by decide) (by unfold WFWin; decide)).1⟩

end Flare
